import Mathlib

/-!
The indexing backend of the EVM web3 gateway.

A shallow embedding of `indexer/backend.go` (the type `psqlBackend` with its
methods `Index`, `QueryBlockRound`, `QueryBlockHash` and `QueryTxResult`).

Conventions of the embedding.

* Go's `uint64` rounds are natural numbers; no arithmetic is done on them.  The
  conversion `uint32(idx)` of the loop position is written `idx % 2 ^ 32`.
* A value of type `hash.Hash` (oasis-core) is represented by its `String()` rendering,
  the hexadecimal digits of its bytes without a prefix, the only form in which the
  backend hands it to the storage.  The hash of a decoded Ethereum transaction has
  the type `common.Hash` of go-ethereum, whose `String()` puts `0x` before the digits.
* A Go result pair `(v, err)` is a pair whose second component is `none` for a nil
  error.  A pointer that may be nil is an `Option`.
* The elements of `txs` are the pointed-to transactions.
* Calls to collaborators (storage, decoder, logger) are recorded, in order, in the
  trace of a `World`, next to the state of the storage.
* A Go panic is the `Outcome.panic` result.
-/

namespace Indexer

/-! ## Data model -/

/-- A Go `error` value, represented by its message. -/
abbrev Error := String

/-- A value of the type `hash.Hash` of oasis-core, given by `hash.Hash.String()`: the
hexadecimal digits of its bytes, without a prefix. -/
abbrev Hash := String

/-- The part of `types.AuthProof` the backend reads. -/
structure AuthProof where
  Module : String
deriving DecidableEq, Repr

/-- The part of `types.UnverifiedTransaction` the backend reads. -/
structure UnverifiedTransaction where
  Body : List UInt8
  AuthProofs : List AuthProof
deriving DecidableEq, Repr

/-- The record `model.Block` built at the start of `Index`. -/
structure Block where
  Round : Nat
  Hash : String
deriving DecidableEq, Repr

/-- The record `model.TxResult`. -/
structure TxResult where
  Index : Nat
  Round : Nat
deriving DecidableEq, Repr

/-- The record `model.Transaction`; `Result` is a pointer in the source. -/
structure Transaction where
  EthTxHash : String
  Result : Option TxResult
deriving DecidableEq, Repr

/-- The record `model.IndexedRoundWithTip` of the storage tests; the tip tag is the
numeric value of the enumeration. -/
structure IndexedRoundWithTip where
  Tip : Nat
  Round : Nat
deriving DecidableEq, Repr

/-- The values handed to `Store`, whose parameter has type `interface{}`. -/
inductive Record where
  | block (b : Block)
  | transaction (t : Transaction)
  | indexedRound (p : IndexedRoundWithTip)
deriving DecidableEq, Repr

/-- A call made by the backend to one of its collaborators. -/
inductive Event where
  | store (r : Record)
  | getBlockRound (h : String)
  | getBlockHash (round : Nat)
  | getTxResult (h : String)
  | decodeBytes (body : List UInt8)
  | logError (msg : String)
deriving DecidableEq, Repr

/-- The result of running Go code that may panic. -/
inductive Outcome (α : Type) where
  | ret (a : α)
  | panic (msg : String)
deriving DecidableEq, Repr

/-- Modelled from the spec: the interface `storage.Storage`, whose declaration is
not part of the sources.  The method names and argument types are those of the call
sites in `backend.go`; that a write reports `ok | StorageError` and that a lookup
reports a value or an error is section 4.2 of the specification.  The state of the
persistence engine is the type parameter. -/
structure Storage (σ : Type) where
  Store : σ → Record → σ × Option Error
  GetBlockRound : σ → String → Nat × Option Error
  GetBlockHash : σ → Nat → Hash × Option Error
  GetTxResult : σ → String → Option TxResult × Option Error

/-- The decoder `rlp.DecodeBytes` into an `ethtypes.Transaction` together with
`ethTx.Hash()`; both belong to go-ethereum and are parameters here.  The hash, a
`common.Hash`, is given by the hexadecimal digits of its bytes. -/
structure Codec (τ : Type) where
  DecodeBytes : List UInt8 → Except Error τ
  Hash : τ → String

/-- The storage state together with the calls made so far. -/
structure World (σ : Type) where
  db : σ
  trace : List Event

/-- The struct `psqlBackend`; its logger is represented by the trace. -/
structure psqlBackend (σ : Type) where
  storage : Storage σ

/-- Record a call. -/
def World.emit {σ : Type} (w : World σ) (e : Event) : World σ :=
  { w with trace := w.trace ++ [e] }

/-- The statement `p.storage.Store(v)`: the write is made and its result dropped. -/
def psqlBackend.callStore {σ : Type} (p : psqlBackend σ) (w : World σ) (v : Record) :
    World σ :=
  { db := (p.storage.Store w.db v).1, trace := w.trace ++ [Event.store v] }

/-- The method `common.Hash.String()` of go-ethereum, applied to the digits of a hash:
the digits with `0x` in front. -/
def ethHashString (digits : String) : String := "0x" ++ digits

/-- The module tag compared against in `Index`. -/
def ethereumModule : String := "evm.ethereum.v0"

/-- The record `txRef` built in the loop of `Index`. -/
def txRef (round : Nat) (idx : Nat) (ethTxHash : String) : Transaction :=
  { EthTxHash := ethTxHash, Result := some { Index := idx % 2 ^ 32, Round := round } }

/-- One iteration of the loop of `Index`, for the transaction `utx` at position
`idx`.  The test `len(utx.AuthProofs) != 1 || utx.AuthProofs[0].Module != ...` is
evaluated left to right; the element access panics when out of range. -/
def psqlBackend.indexTx {σ τ : Type} (p : psqlBackend σ) (rlp : Codec τ) (round : Nat)
    (w : World σ) (idx : Nat) (utx : UnverifiedTransaction) : Outcome (World σ) :=
  if utx.AuthProofs.length ≠ 1 then
    Outcome.ret w
  else
    match utx.AuthProofs[0]? with
    | none => Outcome.panic "index out of range"
    | some proof =>
      if proof.Module ≠ ethereumModule then
        Outcome.ret w
      else
        match rlp.DecodeBytes utx.Body with
        | Except.error _ =>
          Outcome.ret
            ((w.emit (Event.decodeBytes utx.Body)).emit
              (Event.logError "decode ethereum transaction"))
        | Except.ok ethTx =>
          Outcome.ret
            (p.callStore (w.emit (Event.decodeBytes utx.Body))
              (Record.transaction (txRef round idx (ethHashString (rlp.Hash ethTx)))))

/-- The loop `for idx, utx := range txs` of `Index`, entered at position `idx`. -/
def psqlBackend.indexLoop {σ τ : Type} (p : psqlBackend σ) (rlp : Codec τ) (round : Nat) :
    Nat → List UnverifiedTransaction → World σ → Outcome (World σ)
  | _, [], w => Outcome.ret w
  | idx, utx :: rest, w =>
    match p.indexTx rlp round w idx utx with
    | Outcome.ret w1 => psqlBackend.indexLoop p rlp round (idx + 1) rest w1
    | Outcome.panic msg => Outcome.panic msg

/-- The method `psqlBackend.Index`: the returned error and the world it leaves. -/
def psqlBackend.Index {σ τ : Type} (p : psqlBackend σ) (rlp : Codec τ) (w : World σ)
    (round : Nat) (blockHash : Hash) (txs : List UnverifiedTransaction) :
    Outcome (Option Error × World σ) :=
  let blockRef : Block := { Round := round, Hash := blockHash }
  match p.indexLoop rlp round 0 txs (p.callStore w (Record.block blockRef)) with
  | Outcome.ret w1 => Outcome.ret (none, w1)
  | Outcome.panic msg => Outcome.panic msg

/-- The method `psqlBackend.QueryBlockRound`. -/
def psqlBackend.QueryBlockRound {σ : Type} (p : psqlBackend σ) (w : World σ)
    (blockHash : Hash) : Outcome ((Nat × Option Error) × World σ) :=
  let w1 := w.emit (Event.getBlockRound blockHash)
  match p.storage.GetBlockRound w.db blockHash with
  | (_, some err) => Outcome.ret ((0, some err), w1.emit (Event.logError "Can't find matched block"))
  | (round, none) => Outcome.ret ((round, none), w1)

/-- The method `psqlBackend.QueryBlockHash`; the `return nil, err` after the panic
is never reached. -/
def psqlBackend.QueryBlockHash {σ : Type} (p : psqlBackend σ) (w : World σ)
    (round : Nat) : Outcome ((Hash × Option Error) × World σ) :=
  let w1 := w.emit (Event.getBlockHash round)
  match p.storage.GetBlockHash w.db round with
  | (_, some _) => Outcome.panic "Indexer error!"
  | (hash, none) => Outcome.ret ((hash, none), w1)

/-- The method `psqlBackend.QueryTxResult`. -/
def psqlBackend.QueryTxResult {σ : Type} (p : psqlBackend σ) (w : World σ)
    (ethTransactionHash : Hash) : Outcome ((Option TxResult × Option Error) × World σ) :=
  let w1 := w.emit (Event.getTxResult ethTransactionHash)
  match p.storage.GetTxResult w.db ethTransactionHash with
  | (_, some err) =>
    Outcome.ret ((none, some err), w1.emit (Event.logError "Can't find matched transaction result"))
  | (result, none) => Outcome.ret ((result, none), w1)

/-! ## Reading a trace -/

/-- The value a Go function returned, without the world it left. -/
def Outcome.value {α β : Type} : Outcome (α × β) → Outcome α
  | Outcome.ret r => Outcome.ret r.1
  | Outcome.panic msg => Outcome.panic msg

/-- The records handed to `Store` in a trace, in call order. -/
def storeCalls : List Event → List Record
  | [] => []
  | Event.store r :: es => r :: storeCalls es
  | _ :: es => storeCalls es

/-- The storage state reached from `s` by the writes `recs`, results dropped. -/
def psqlBackend.writes {σ : Type} (p : psqlBackend σ) (s : σ) (recs : List Record) : σ :=
  recs.foldl (fun acc r => (p.storage.Store acc r).1) s

/-- The calls one iteration of the loop of `Index` makes, read off `indexTx`. -/
def txEvents {τ : Type} (rlp : Codec τ) (round : Nat) (idx : Nat)
    (utx : UnverifiedTransaction) : List Event :=
  match utx.AuthProofs with
  | [proof] =>
    if proof.Module = ethereumModule then
      match rlp.DecodeBytes utx.Body with
      | Except.error _ =>
        [Event.decodeBytes utx.Body, Event.logError "decode ethereum transaction"]
      | Except.ok ethTx =>
        [Event.decodeBytes utx.Body,
          Event.store (Record.transaction (txRef round idx (ethHashString (rlp.Hash ethTx))))]
    else []
  | _ => []

/-- The calls the loop of `Index` makes when entered at position `idx`. -/
def loopEvents {τ : Type} (rlp : Codec τ) (round : Nat) :
    Nat → List UnverifiedTransaction → List Event
  | _, [] => []
  | idx, utx :: rest => txEvents rlp round idx utx ++ loopEvents rlp round (idx + 1) rest

/-- The calls one run of `Index` makes, read off `Index`. -/
def indexEvents {τ : Type} (rlp : Codec τ) (round : Nat) (blockHash : Hash)
    (txs : List UnverifiedTransaction) : List Event :=
  Event.store (Record.block ⟨round, blockHash⟩) :: loopEvents rlp round 0 txs

/-- One call of `Index`, as the driver makes it. -/
structure IndexCall where
  round : Nat
  blockHash : Hash
  txs : List UnverifiedTransaction

/-- A sequence of `Index` calls made one after the other, as by the driver. -/
def psqlBackend.IndexAll {σ τ : Type} (p : psqlBackend σ) (rlp : Codec τ) :
    World σ → List IndexCall → Outcome (World σ)
  | w, [] => Outcome.ret w
  | w, c :: cs =>
    match p.Index rlp w c.round c.blockHash c.txs with
    | Outcome.ret r => psqlBackend.IndexAll p rlp r.2 cs
    | Outcome.panic msg => Outcome.panic msg

/-- The calls a sequence of `Index` calls makes. -/
def allEvents {τ : Type} (rlp : Codec τ) : List IndexCall → List Event
  | [] => []
  | c :: cs => indexEvents rlp c.round c.blockHash c.txs ++ allEvents rlp cs

/-! ## A reference storage -/

namespace Table

/-- The value bound to key `k` in an association table, first match. -/
def lookup {κ ν : Type} [DecidableEq κ] : List (κ × ν) → κ → Option ν
  | [], _ => none
  | e :: rest, k => if e.1 = k then some e.2 else lookup rest k

/-- The key of the first row holding the value `v`. -/
def keyOf {κ ν : Type} [DecidableEq ν] : List (κ × ν) → ν → Option κ
  | [], _ => none
  | e :: rest, v => if e.2 = v then some e.1 else keyOf rest v

/-- Whether some row has key `k`. -/
def hasKey {κ ν : Type} [DecidableEq κ] : List (κ × ν) → κ → Bool
  | [], _ => false
  | e :: rest, k => if e.1 = k then true else hasKey rest k

/-- Overwrite a row whose key is `k`. -/
def setRow {κ ν : Type} [DecidableEq κ] (k : κ) (v : ν) (e : κ × ν) : κ × ν :=
  if e.1 = k then (k, v) else e

/-- Create-or-replace keyed by `k`: rows with key `k` are replaced where they stand,
and a row is added at the end when there is none. -/
def upsert {κ ν : Type} [DecidableEq κ] (t : List (κ × ν)) (k : κ) (v : ν) : List (κ × ν) :=
  if hasKey t k then t.map (setRow k v) else t ++ [(k, v)]

/-- A sequence of upserts. -/
def upsertAll {κ ν : Type} [DecidableEq κ] (t : List (κ × ν)) (kvs : List (κ × ν)) :
    List (κ × ν) :=
  kvs.foldl (fun acc e => upsert acc e.1 e.2) t

/-- The value of the last row of `kvs` with key `k`. -/
def lastValue {κ ν : Type} [DecidableEq κ] : List (κ × ν) → κ → Option ν
  | [], _ => none
  | e :: rest, k =>
    match lastValue rest k with
    | some v => some v
    | none => if e.1 = k then some e.2 else none

/-- Overwrite a row by the last value `kvs` gives to its key, if any. -/
def settle {κ ν : Type} [DecidableEq κ] (kvs : List (κ × ν)) (e : κ × ν) : κ × ν :=
  match lastValue kvs e.1 with
  | some v => (e.1, v)
  | none => e

end Table

/-- Modelled from the spec: the state of the persistence engine behind
`storage.Storage`, which is not part of the sources.  Section 4.2 of the
specification keys block records by round and transaction records by hash, and keeps
one progress record. -/
structure MemDB where
  blocks : List (Nat × String)
  txs : List (String × Option TxResult)
  progress : Option IndexedRoundWithTip
deriving DecidableEq, Repr

/-- The storage before anything was written. -/
def MemDB.empty : MemDB := { blocks := [], txs := [], progress := none }

/-- The error of a lookup that finds nothing. -/
def notFound : Error := "not found"

/-- Modelled from the spec: `upsert(entity)` of section 4.2, create-or-replace keyed
by round for a block record, by hash for a transaction record and by a fixed key for
the progress record, of which the larger round is kept (section 8, monotonic tip).
The write always succeeds. -/
def MemDB.Store (s : MemDB) : Record → MemDB
  | Record.block b => { s with blocks := Table.upsert s.blocks b.Round b.Hash }
  | Record.transaction t => { s with txs := Table.upsert s.txs t.EthTxHash t.Result }
  | Record.indexedRound q =>
    match s.progress with
    | some old => if q.Round < old.Round then s else { s with progress := some q }
    | none => { s with progress := some q }

/-- Modelled from the spec: `getBlockRound(hash) -> round | NotFound`. -/
def MemDB.GetBlockRound (s : MemDB) (h : String) : Nat × Option Error :=
  match Table.keyOf s.blocks h with
  | some round => (round, none)
  | none => (0, some notFound)

/-- Modelled from the spec: `getBlockHash(round) -> hash | NotFound`. -/
def MemDB.GetBlockHash (s : MemDB) (round : Nat) : Hash × Option Error :=
  match Table.lookup s.blocks round with
  | some h => (h, none)
  | none => ("", some notFound)

/-- Modelled from the spec: the lookup of a transaction record by its hash. -/
def MemDB.GetTxResult (s : MemDB) (h : String) : Option TxResult × Option Error :=
  match Table.lookup s.txs h with
  | some r => (r, none)
  | none => (none, some notFound)

/-- Modelled from the spec: `getLastIndexedRound() -> round | NotFound`. -/
def MemDB.GetLastIndexedRound (s : MemDB) : Nat × Option Error :=
  match s.progress with
  | some q => (q.Round, none)
  | none => (0, some notFound)

/-- Modelled from the spec: a storage whose writes succeed, over `MemDB`. -/
def memStorage : Storage MemDB where
  Store := fun s r => (s.Store r, none)
  GetBlockRound := MemDB.GetBlockRound
  GetBlockHash := MemDB.GetBlockHash
  GetTxResult := MemDB.GetTxResult

/-- The backend over the reference storage. -/
def memBackend : psqlBackend MemDB := { storage := memStorage }

/-- The storage state reached from `s` by the writes `recs` on the reference storage. -/
def replay (recs : List Record) (s : MemDB) : MemDB :=
  recs.foldl MemDB.Store s

/-- The rows a list of writes puts into the transaction table. -/
def txRows : List Record → List (String × Option TxResult)
  | [] => []
  | Record.transaction t :: rs => (t.EthTxHash, t.Result) :: txRows rs
  | _ :: rs => txRows rs

/-- The rows a list of writes puts into the block table. -/
def blockRows : List Record → List (Nat × String)
  | [] => []
  | Record.block b :: rs => (b.Round, b.Hash) :: blockRows rs
  | _ :: rs => blockRows rs

/-- Referential invariant: the round of every stored transaction record has a
stored block record. -/
def MemDB.refOK (s : MemDB) : Prop :=
  ∀ h r, (h, some r) ∈ s.txs → ∃ e ∈ s.blocks, e.1 = r.Round

/-- In a list of writes, every transaction record comes after a block record of its
round. -/
def blockFirst : List Record → List Nat → Prop
  | [], _ => True
  | Record.block b :: rs, seen => blockFirst rs (b.Round :: seen)
  | Record.transaction t :: rs, seen =>
    (∀ r, t.Result = some r → r.Round ∈ seen) ∧ blockFirst rs seen
  | Record.indexedRound _ :: rs, seen => blockFirst rs seen

/-! ## Concrete collaborators -/

/-- A storage every write of which fails and every lookup of which misses. -/
def failingStorage : Storage Unit where
  Store := fun s _ => (s, some "storage failure")
  GetBlockRound := fun _ _ => (0, some notFound)
  GetBlockHash := fun _ _ => ("", some notFound)
  GetTxResult := fun _ _ => (none, some notFound)

/-- The backend over the failing storage. -/
def failingBackend : psqlBackend Unit := { storage := failingStorage }

/-- The RLP encoding of the legacy transaction with nonce 1 and every other field
empty. -/
def legacyBody : List UInt8 := [0xc9, 0x01, 0x80, 0x80, 0x80, 0x80, 0x80, 0x80, 0x80, 0x80]

/-- The digits of the Keccak-256 hash of `legacyBody`, the hash of that transaction. -/
def legacyHash : String :=
  "8a84686634729c57532b9ffa4e632e241b2de5c880c771c5c214d5e7ec465b1c"

/-- A decoder that agrees with `rlp.DecodeBytes` on two payloads: it accepts
`legacyBody`, and rejects the empty payload; it rejects every other payload too. -/
def demoCodec : Codec Unit where
  DecodeBytes := fun body =>
    if body = legacyBody then Except.ok () else Except.error "rlp: decode error"
  Hash := fun _ => legacyHash

/-- A transaction carrying one proof with the Ethereum module tag. -/
def ethTx (body : List UInt8) : UnverifiedTransaction :=
  { Body := body, AuthProofs := [{ Module := "evm.ethereum.v0" }] }

/-- The world before any call, over the reference storage. -/
def World.start : World MemDB := { db := MemDB.empty, trace := [] }

/-! ## The calls made by `Index` -/

theorem storeCalls_append (a b : List Event) :
    storeCalls (a ++ b) = storeCalls a ++ storeCalls b := by
  induction a with
  | nil => rfl
  | cons e es ih => cases e <;> simp [storeCalls, ih]

theorem writes_append {σ : Type} (p : psqlBackend σ) (s : σ) (a b : List Record) :
    p.writes s (a ++ b) = p.writes (p.writes s a) b := by
  simp [psqlBackend.writes, List.foldl_append]

/-- One iteration of the loop returns, having made the calls `txEvents`. -/
theorem indexTx_eq {σ τ : Type} (p : psqlBackend σ) (rlp : Codec τ) (round : Nat)
    (w : World σ) (idx : Nat) (utx : UnverifiedTransaction) :
    p.indexTx rlp round w idx utx =
      Outcome.ret ⟨p.writes w.db (storeCalls (txEvents rlp round idx utx)),
        w.trace ++ txEvents rlp round idx utx⟩ := by
  obtain ⟨body, proofs⟩ := utx
  match proofs with
  | [] => simp [psqlBackend.indexTx, txEvents, storeCalls, psqlBackend.writes]
  | [proof] =>
    by_cases hm : proof.Module = ethereumModule
    · cases hd : rlp.DecodeBytes body with
      | error e =>
        simp [psqlBackend.indexTx, txEvents, storeCalls, psqlBackend.writes, hm, hd,
          World.emit]
      | ok t =>
        simp [psqlBackend.indexTx, txEvents, storeCalls, psqlBackend.writes, hm, hd,
          World.emit, psqlBackend.callStore]
    · simp [psqlBackend.indexTx, txEvents, storeCalls, psqlBackend.writes, hm]
  | _ :: _ :: _ => simp [psqlBackend.indexTx, txEvents, storeCalls, psqlBackend.writes]

/-- The loop returns, having made the calls `loopEvents`. -/
theorem indexLoop_eq {σ τ : Type} (p : psqlBackend σ) (rlp : Codec τ) (round : Nat)
    (txs : List UnverifiedTransaction) :
    ∀ (idx : Nat) (w : World σ), p.indexLoop rlp round idx txs w =
      Outcome.ret ⟨p.writes w.db (storeCalls (loopEvents rlp round idx txs)),
        w.trace ++ loopEvents rlp round idx txs⟩ := by
  induction txs with
  | nil => intro idx w; simp [psqlBackend.indexLoop, loopEvents, storeCalls, psqlBackend.writes]
  | cons utx rest ih =>
    intro idx w
    simp only [psqlBackend.indexLoop, indexTx_eq, ih, loopEvents, storeCalls_append,
      writes_append, List.append_assoc]

/-- The method `Index` returns a nil error, having written the block record and then
made the calls of the loop. -/
theorem Index_eq {σ τ : Type} (p : psqlBackend σ) (rlp : Codec τ) (w : World σ)
    (round : Nat) (blockHash : Hash) (txs : List UnverifiedTransaction) :
    p.Index rlp w round blockHash txs =
      Outcome.ret (none,
        ⟨p.writes w.db (Record.block ⟨round, blockHash⟩ ::
            storeCalls (loopEvents rlp round 0 txs)),
          w.trace ++ Event.store (Record.block ⟨round, blockHash⟩) ::
            loopEvents rlp round 0 txs⟩) := by
  simp only [psqlBackend.Index, indexLoop_eq, psqlBackend.callStore]
  simp [psqlBackend.writes]

theorem mem_storeCalls (r : Record) (es : List Event) :
    r ∈ storeCalls es ↔ Event.store r ∈ es := by
  induction es with
  | nil => simp [storeCalls]
  | cons e es ih => cases e <;> simp [storeCalls, ih]

theorem loopEvents_append {τ : Type} (rlp : Codec τ) (round : Nat)
    (a b : List UnverifiedTransaction) :
    ∀ idx : Nat, loopEvents rlp round idx (a ++ b) =
      loopEvents rlp round idx a ++ loopEvents rlp round (idx + a.length) b := by
  induction a with
  | nil => intro idx; simp [loopEvents]
  | cons u rest ih =>
    intro idx
    have e : idx + 1 + rest.length = idx + (rest.length + 1) := by omega
    show loopEvents rlp round idx (u :: (rest ++ b)) = _
    simp only [loopEvents, ih, List.append_assoc, List.length_cons, e]

/-- A transaction that fails the test of the loop causes no call. -/
theorem txEvents_skip {τ : Type} (rlp : Codec τ) (round idx : Nat)
    (utx : UnverifiedTransaction)
    (h : utx.AuthProofs.length ≠ 1 ∨
      ∃ proof, utx.AuthProofs = [proof] ∧ proof.Module ≠ ethereumModule) :
    txEvents rlp round idx utx = [] := by
  obtain ⟨body, proofs⟩ := utx
  match proofs, h with
  | [], _ => simp [txEvents]
  | [proof], h =>
    rcases h with h | ⟨q, hq, hm⟩
    · simp at h
    · simp only [List.cons.injEq, and_true] at hq
      subst hq
      simp [txEvents, hm]
  | _ :: _ :: _, _ => simp [txEvents]

/-- The calls of a transaction that passes the test and decodes. -/
theorem txEvents_ok {τ : Type} (rlp : Codec τ) (round idx : Nat)
    (utx : UnverifiedTransaction) (proof : AuthProof) (t : τ)
    (hp : utx.AuthProofs = [proof]) (hm : proof.Module = ethereumModule)
    (hd : rlp.DecodeBytes utx.Body = Except.ok t) :
    txEvents rlp round idx utx =
      [Event.decodeBytes utx.Body,
        Event.store (Record.transaction (txRef round idx (ethHashString (rlp.Hash t))))] := by
  simp [txEvents, hp, hm, hd]

/-- A write among the calls of one iteration comes from a decoded transaction. -/
theorem store_mem_txEvents {τ : Type} (rlp : Codec τ) (round idx : Nat)
    (utx : UnverifiedTransaction) (r : Record)
    (h : Event.store r ∈ txEvents rlp round idx utx) :
    ∃ proof t, utx.AuthProofs = [proof] ∧ proof.Module = ethereumModule ∧
      rlp.DecodeBytes utx.Body = Except.ok t ∧
      r = Record.transaction (txRef round idx (ethHashString (rlp.Hash t))) := by
  obtain ⟨body, proofs⟩ := utx
  match proofs, h with
  | [], h => simp [txEvents] at h
  | [proof], h =>
    by_cases hm : proof.Module = ethereumModule
    · cases hd : rlp.DecodeBytes body with
      | error e => simp [txEvents, hm, hd] at h
      | ok t =>
        simp [txEvents, hm, hd] at h
        exact ⟨proof, t, rfl, hm, rfl, h⟩
    · simp [txEvents, hm] at h
  | _ :: _ :: _, h => simp [txEvents] at h

/-- A write among the calls of the loop comes from a decoded transaction of the list,
and carries its position. -/
theorem store_mem_loopEvents {τ : Type} (rlp : Codec τ) (round : Nat)
    (txs : List UnverifiedTransaction) (r : Record) :
    ∀ idx : Nat, Event.store r ∈ loopEvents rlp round idx txs →
      ∃ k utx proof t, txs[k]? = some utx ∧ utx.AuthProofs = [proof] ∧
        proof.Module = ethereumModule ∧ rlp.DecodeBytes utx.Body = Except.ok t ∧
        r = Record.transaction (txRef round (idx + k) (ethHashString (rlp.Hash t))) := by
  induction txs with
  | nil => intro idx h; simp [loopEvents] at h
  | cons u rest ih =>
    intro idx h
    simp only [loopEvents, List.mem_append] at h
    rcases h with h | h
    · obtain ⟨proof, t, h1, h2, h3, h4⟩ := store_mem_txEvents rlp round idx u r h
      exact ⟨0, u, proof, t, by simp, h1, h2, h3, by simpa using h4⟩
    · obtain ⟨k, utx, proof, t, h0, h1, h2, h3, h4⟩ := ih (idx + 1) h
      refine ⟨k + 1, utx, proof, t, by simpa using h0, h1, h2, h3, ?_⟩
      rw [h4]
      congr 2
      omega

theorem getElem?_split {α : Type} (l : List α) (a : α) :
    ∀ i : Nat, l[i]? = some a → ∃ pre post, l = pre ++ a :: post ∧ pre.length = i := by
  induction l with
  | nil => intro i h; simp at h
  | cons x xs ih =>
    intro i h
    cases i with
    | zero =>
      simp at h
      exact ⟨[], xs, by simp [h], rfl⟩
    | succ n =>
      simp at h
      obtain ⟨pre, post, h1, h2⟩ := ih n h
      exact ⟨x :: pre, post, by simp [h1], by simp [h2]⟩

/-- A decoded transaction of the list has its write among the calls of the loop. -/
theorem loopEvents_of_ok {τ : Type} (rlp : Codec τ) (round idx i : Nat)
    (txs : List UnverifiedTransaction) (utx : UnverifiedTransaction) (proof : AuthProof)
    (t : τ) (hi : txs[i]? = some utx) (hp : utx.AuthProofs = [proof])
    (hm : proof.Module = ethereumModule) (hd : rlp.DecodeBytes utx.Body = Except.ok t) :
    ∃ pre post, txs = pre ++ utx :: post ∧ pre.length = i ∧
      loopEvents rlp round idx txs = loopEvents rlp round idx pre ++
        ([Event.decodeBytes utx.Body,
          Event.store (Record.transaction (txRef round (idx + i) (ethHashString (rlp.Hash t))))] ++
        loopEvents rlp round (idx + i + 1) post) := by
  obtain ⟨pre, post, h1, h2⟩ := getElem?_split txs utx i hi
  refine ⟨pre, post, h1, h2, ?_⟩
  rw [h1, loopEvents_append, loopEvents, txEvents_ok rlp round _ utx proof t hp hm hd, h2]

theorem QueryBlockHash_miss {σ : Type} (p : psqlBackend σ) (w : World σ) (round : Nat)
    (v : Hash) (err : Error) (h : p.storage.GetBlockHash w.db round = (v, some err)) :
    p.QueryBlockHash w round = Outcome.panic "Indexer error!" := by
  simp [psqlBackend.QueryBlockHash, h]

/-! ## Association tables -/

namespace Table

variable {κ ν : Type} [DecidableEq κ]

theorem lookup_map_setRow_ne (t : List (κ × ν)) (k k2 : κ) (v : ν) (h : k ≠ k2) :
    lookup (t.map (setRow k v)) k2 = lookup t k2 := by
  induction t with
  | nil => rfl
  | cons e rest ih =>
    by_cases he : e.1 = k
    · have h2 : ¬ e.1 = k2 := by rw [he]; exact h
      simp [lookup, setRow, he, h, h2, ih]
    · simp [lookup, setRow, he, ih]

theorem lookup_map_setRow_self (t : List (κ × ν)) (k : κ) (v : ν)
    (h : hasKey t k = true) : lookup (t.map (setRow k v)) k = some v := by
  induction t with
  | nil => simp [hasKey] at h
  | cons e rest ih =>
    by_cases he : e.1 = k
    · simp [lookup, setRow, he]
    · simp only [hasKey, he, if_false] at h
      simp [lookup, setRow, he, ih h]

theorem lookup_append (a b : List (κ × ν)) (k : κ) :
    lookup (a ++ b) k = (match lookup a k with
      | some v => some v
      | none => lookup b k) := by
  induction a with
  | nil => simp [lookup]
  | cons e rest ih =>
    by_cases he : e.1 = k
    · simp [lookup, he]
    · simp [lookup, he, ih]

theorem lookup_none_of_hasKey (t : List (κ × ν)) (k : κ) (h : hasKey t k = false) :
    lookup t k = none := by
  induction t with
  | nil => rfl
  | cons e rest ih =>
    by_cases he : e.1 = k
    · simp [hasKey, he] at h
    · simp only [hasKey, he, if_false] at h
      simp [lookup, he, ih h]

/-- After an upsert the key reads the value written, and other keys are unchanged. -/
theorem lookup_upsert (t : List (κ × ν)) (k k2 : κ) (v : ν) :
    lookup (upsert t k v) k2 = if k = k2 then some v else lookup t k2 := by
  unfold upsert
  by_cases hk : hasKey t k = true
  · simp only [hk, if_true]
    by_cases h : k = k2
    · subst h
      simp [lookup_map_setRow_self t k v hk]
    · simp [h, lookup_map_setRow_ne t k k2 v h]
  · have hk2 : hasKey t k = false := by simpa using hk
    simp only [hk2, Bool.false_eq_true, if_false, lookup_append]
    by_cases h : k = k2
    · subst h
      simp [lookup_none_of_hasKey t k hk2, lookup]
    · cases hl : lookup t k2 <;> simp [lookup, h]

theorem upsertAll_cons (t : List (κ × ν)) (e : κ × ν) (kvs : List (κ × ν)) :
    upsertAll t (e :: kvs) = upsertAll (upsert t e.1 e.2) kvs := rfl

theorem upsertAll_append (t : List (κ × ν)) (a b : List (κ × ν)) :
    upsertAll t (a ++ b) = upsertAll (upsertAll t a) b := by
  simp [upsertAll, List.foldl_append]

/-- After a sequence of upserts a key reads the last value written to it. -/
theorem lookup_upsertAll (kvs : List (κ × ν)) :
    ∀ (t : List (κ × ν)) (k : κ), lookup (upsertAll t kvs) k =
      (match lastValue kvs k with
        | some v => some v
        | none => lookup t k) := by
  induction kvs with
  | nil => intro t k; simp [upsertAll, lastValue]
  | cons e rest ih =>
    intro t k
    rw [upsertAll_cons, ih, lookup_upsert]
    cases hl : lastValue rest k with
    | some v => simp [lastValue, hl]
    | none => by_cases he : e.1 = k <;> simp [lastValue, hl, he]

theorem lastValue_append (a b : List (κ × ν)) (k : κ) :
    lastValue (a ++ b) k = (match lastValue b k with
      | some v => some v
      | none => lastValue a k) := by
  induction a with
  | nil => cases hl : lastValue b k <;> simp [lastValue, hl]
  | cons e rest ih =>
    show lastValue (e :: (rest ++ b)) k = _
    simp only [lastValue]
    rw [ih]
    cases hl : lastValue b k <;> simp

theorem lastValue_none (kvs : List (κ × ν)) (k : κ) (h : ∀ e ∈ kvs, e.1 ≠ k) :
    lastValue kvs k = none := by
  induction kvs with
  | nil => rfl
  | cons e rest ih =>
    have h1 : ¬ e.1 = k := h e (by simp)
    have h2 : lastValue rest k = none := ih (fun x hx => h x (by simp [hx]))
    simp [lastValue, h1, h2]

theorem mem_map_setRow (t : List (κ × ν)) (k : κ) (v : ν) (e : κ × ν)
    (h : e ∈ t.map (setRow k v)) : e = (k, v) ∨ (e.1 ≠ k ∧ e ∈ t) := by
  obtain ⟨x, hx, rfl⟩ := List.mem_map.mp h
  by_cases hk : x.1 = k
  · left; simp [setRow, hk]
  · right; simp [setRow, hk, hx]

/-- A row of the table after an upsert is the row written or an older row of
another key. -/
theorem mem_upsert (t : List (κ × ν)) (k : κ) (v : ν) (e : κ × ν)
    (h : e ∈ upsert t k v) : e = (k, v) ∨ (e.1 ≠ k ∧ e ∈ t) := by
  unfold upsert at h
  by_cases hk : hasKey t k = true
  · simp only [hk, if_true] at h
    exact mem_map_setRow t k v e h
  · have hk2 : hasKey t k = false := by simpa using hk
    simp only [hk2, Bool.false_eq_true, if_false, List.mem_append, List.mem_singleton] at h
    rcases h with h | h
    · right
      refine ⟨?_, h⟩
      intro he
      have : hasKey t k = true := by
        clear hk hk2
        induction t with
        | nil => simp at h
        | cons x rest ih =>
          by_cases hx : x.1 = k
          · simp [hasKey, hx]
          · simp only [hasKey, hx, if_false]
            rcases List.mem_cons.mp h with h | h
            · subst h; exact absurd he hx
            · exact ih h
      rw [this] at hk2
      exact absurd hk2 (by simp)
    · left; exact h

theorem hasKey_iff (t : List (κ × ν)) (k : κ) :
    hasKey t k = true ↔ ∃ e ∈ t, e.1 = k := by
  induction t with
  | nil => simp [hasKey]
  | cons x rest ih =>
    by_cases hx : x.1 = k
    · simp [hasKey, hx]
    · simp [hasKey, hx, ih]

/-- The row written is in the table after an upsert. -/
theorem self_mem_upsert (t : List (κ × ν)) (k : κ) (v : ν) : (k, v) ∈ upsert t k v := by
  unfold upsert
  by_cases hk : hasKey t k = true
  · simp only [hk, if_true]
    obtain ⟨e, he, hek⟩ := (hasKey_iff t k).mp hk
    exact List.mem_map.mpr ⟨e, he, by simp [setRow, hek]⟩
  · have hk2 : hasKey t k = false := by simpa using hk
    simp [hk2]

/-- A row of another key stays in the table through an upsert. -/
theorem mem_upsert_of_ne (t : List (κ × ν)) (k : κ) (v : ν) (e : κ × ν) (he : e ∈ t)
    (hne : e.1 ≠ k) : e ∈ upsert t k v := by
  unfold upsert
  by_cases hk : hasKey t k = true
  · simp only [hk, if_true]
    exact List.mem_map.mpr ⟨e, he, by simp [setRow, hne]⟩
  · have hk2 : hasKey t k = false := by simpa using hk
    simp [hk2, he]

/-- A key of the table is still a key after an upsert. -/
theorem key_mem_upsert (t : List (κ × ν)) (k : κ) (v : ν) (k2 : κ)
    (h : ∃ e ∈ t, e.1 = k2) : ∃ e ∈ upsert t k v, e.1 = k2 := by
  obtain ⟨e, he, hek⟩ := h
  by_cases hk : k2 = k
  · exact ⟨(k, v), self_mem_upsert t k v, by simp [hk]⟩
  · exact ⟨e, mem_upsert_of_ne t k v e he (by rw [hek]; exact hk), hek⟩

end Table

theorem Table.keyOf_eq {κ ν : Type} [DecidableEq ν] (t : List (κ × ν)) (k : κ) (v : ν)
    (h1 : ∃ e ∈ t, e.2 = v) (h2 : ∀ e ∈ t, e.2 = v → e.1 = k) :
    Table.keyOf t v = some k := by
  induction t with
  | nil => simp at h1
  | cons x rest ih =>
    by_cases hx : x.2 = v
    · simp [Table.keyOf, hx, h2 x (by simp) hx]
    · simp only [Table.keyOf, hx, if_false]
      apply ih
      · obtain ⟨e, he, hev⟩ := h1
        rcases List.mem_cons.mp he with he | he
        · subst he; exact absurd hev hx
        · exact ⟨e, he, hev⟩
      · intro e he hev
        exact h2 e (by simp [he]) hev

namespace Table

variable {κ ν : Type} [DecidableEq κ]

theorem hasKey_map_setRow (t : List (κ × ν)) (k k2 : κ) (v : ν) :
    hasKey (t.map (setRow k v)) k2 = hasKey t k2 := by
  induction t with
  | nil => rfl
  | cons e rest ih =>
    by_cases he : e.1 = k
    · by_cases h2 : k = k2
      · simp [hasKey, setRow, he, h2]
      · have h3 : ¬ e.1 = k2 := by rw [he]; exact h2
        simp [hasKey, setRow, he, h2, h3, ih]
    · simp [hasKey, setRow, he, ih]

theorem settle_setRow (x : κ × ν) (rest : List (κ × ν)) (e : κ × ν) :
    settle rest (setRow x.1 x.2 e) = settle (x :: rest) e := by
  by_cases he : e.1 = x.1
  · have hx : x.1 = e.1 := he.symm
    cases hl : lastValue rest x.1 with
    | none =>
      have hl2 : lastValue rest e.1 = none := by rw [he]; exact hl
      simp [settle, setRow, he, lastValue, hl, hl2]
    | some v =>
      have hl2 : lastValue rest e.1 = some v := by rw [he]; exact hl
      simp [settle, setRow, he, lastValue, hl, hl2]
  · have hx : ¬ x.1 = e.1 := fun h => he h.symm
    cases hl : lastValue rest e.1 <;> simp [settle, setRow, he, hx, lastValue, hl]

/-- On a table that has every key to be written, a sequence of upserts overwrites
each row by the last value given to its key. -/
theorem upsertAll_eq_map (kvs : List (κ × ν)) :
    ∀ t : List (κ × ν), (∀ e ∈ kvs, hasKey t e.1 = true) →
      upsertAll t kvs = t.map (settle kvs) := by
  induction kvs with
  | nil =>
    intro t _
    have : (settle ([] : List (κ × ν))) = id := by
      funext e; simp [settle, lastValue]
    simp [upsertAll, this]
  | cons x rest ih =>
    intro t h
    have hx : hasKey t x.1 = true := h x (by simp)
    rw [upsertAll_cons]
    have hu : upsert t x.1 x.2 = t.map (setRow x.1 x.2) := by simp [upsert, hx]
    rw [hu, ih]
    · rw [List.map_map]
      apply List.map_congr_left
      intro e _
      exact settle_setRow x rest e
    · intro e he
      rw [hasKey_map_setRow]
      exact h e (by simp [he])

theorem key_mem_upsertAll (kvs : List (κ × ν)) :
    ∀ (t : List (κ × ν)) (k : κ), (∃ e ∈ t, e.1 = k) → ∃ e ∈ upsertAll t kvs, e.1 = k := by
  induction kvs with
  | nil => intro t k h; simpa [upsertAll] using h
  | cons x rest ih =>
    intro t k h
    rw [upsertAll_cons]
    exact ih _ k (key_mem_upsert t x.1 x.2 k h)

theorem hasKey_upsertAll (kvs : List (κ × ν)) :
    ∀ t : List (κ × ν), ∀ x ∈ kvs, hasKey (upsertAll t kvs) x.1 = true := by
  induction kvs with
  | nil => intro t x hx; simp at hx
  | cons y rest ih =>
    intro t x hx
    rw [upsertAll_cons]
    rcases List.mem_cons.mp hx with hx | hx
    · subst hx
      exact (hasKey_iff _ _).mpr
        (key_mem_upsertAll rest _ x.1 ⟨(x.1, x.2), self_mem_upsert t x.1 x.2, rfl⟩)
    · exact ih _ x hx

/-- After a sequence of upserts every row of a written key holds the last value
written to that key. -/
theorem value_of_mem_upsertAll (t : List (κ × ν)) (kvs : List (κ × ν)) :
    ∀ e ∈ upsertAll t kvs, ∀ v, lastValue kvs e.1 = some v → e.2 = v := by
  induction kvs using List.reverseRecOn with
  | nil => intro e _ v h; simp [lastValue] at h
  | append_singleton l a ih =>
    intro e he v hv
    rw [upsertAll_append] at he
    have he2 : e ∈ upsert (upsertAll t l) a.1 a.2 := he
    rw [lastValue_append] at hv
    rcases mem_upsert _ _ _ _ he2 with h | ⟨hne, hmem⟩
    · subst h
      simp [lastValue] at hv
      exact hv
    · have hne2 : ¬ a.1 = e.1 := fun h => hne h.symm
      simp only [lastValue, hne2, if_false] at hv
      exact ih e hmem v hv

/-- Writing the same sequence of upserts a second time changes nothing. -/
theorem upsertAll_idem (t : List (κ × ν)) (kvs : List (κ × ν)) :
    upsertAll (upsertAll t kvs) kvs = upsertAll t kvs := by
  rw [upsertAll_eq_map kvs _ (hasKey_upsertAll kvs t)]
  conv_rhs => rw [← List.map_id (upsertAll t kvs)]
  apply List.map_congr_left
  intro e he
  cases hl : lastValue kvs e.1 with
  | none => simp [settle, hl]
  | some v =>
    have := value_of_mem_upsertAll t kvs e he v hl
    simp only [settle, hl, id]
    rw [← this]

end Table

/-! ## The reference storage under a list of writes -/

theorem memBackend_writes (s : MemDB) (recs : List Record) :
    memBackend.writes s recs = replay recs s := rfl

theorem replay_cons (r : Record) (recs : List Record) (s : MemDB) :
    replay (r :: recs) s = replay recs (s.Store r) := rfl

theorem replay_append (a b : List Record) (s : MemDB) :
    replay (a ++ b) s = replay b (replay a s) := by
  simp [replay, List.foldl_append]

theorem replay_blocks (recs : List Record) :
    ∀ s : MemDB, (replay recs s).blocks = Table.upsertAll s.blocks (blockRows recs) := by
  induction recs with
  | nil => intro s; rfl
  | cons r rest ih =>
    intro s
    rw [replay_cons, ih]
    cases r with
    | block b => rfl
    | transaction t => rfl
    | indexedRound q =>
      simp only [MemDB.Store, blockRows]
      cases hp : s.progress with
      | none => rfl
      | some old => by_cases hlt : q.Round < old.Round <;> simp [hlt]

theorem replay_txs (recs : List Record) :
    ∀ s : MemDB, (replay recs s).txs = Table.upsertAll s.txs (txRows recs) := by
  induction recs with
  | nil => intro s; rfl
  | cons r rest ih =>
    intro s
    rw [replay_cons, ih]
    cases r with
    | block b => rfl
    | transaction t => rfl
    | indexedRound q =>
      simp only [MemDB.Store, txRows]
      cases hp : s.progress with
      | none => rfl
      | some old => by_cases hlt : q.Round < old.Round <;> simp [hlt]

theorem replay_progress (recs : List Record) :
    ∀ s : MemDB, (∀ q, Record.indexedRound q ∉ recs) →
      (replay recs s).progress = s.progress := by
  induction recs with
  | nil => intro s _; rfl
  | cons r rest ih =>
    intro s h
    rw [replay_cons, ih _ (fun q hq => h q (by simp [hq]))]
    cases r with
    | block b => rfl
    | transaction t => rfl
    | indexedRound q => exact absurd (by simp) (h q)

theorem MemDB.eq_of_fields (a b : MemDB) (h1 : a.blocks = b.blocks) (h2 : a.txs = b.txs)
    (h3 : a.progress = b.progress) : a = b := by
  cases a; cases b; simp_all

/-- Replaying block and transaction writes a second time changes nothing. -/
theorem replay_idem (recs : List Record) (s : MemDB)
    (h : ∀ q, Record.indexedRound q ∉ recs) :
    replay recs (replay recs s) = replay recs s := by
  apply MemDB.eq_of_fields
  · rw [replay_blocks recs (replay recs s), replay_blocks recs s, Table.upsertAll_idem]
  · rw [replay_txs recs (replay recs s), replay_txs recs s, Table.upsertAll_idem]
  · rw [replay_progress recs _ h]

/-- The writes of `Index` are the block record and transaction records of the round. -/
theorem index_writes_shape {τ : Type} (rlp : Codec τ) (round : Nat) (blockHash : Hash)
    (txs : List UnverifiedTransaction) (r : Record)
    (h : r ∈ Record.block ⟨round, blockHash⟩ :: storeCalls (loopEvents rlp round 0 txs)) :
    r = Record.block ⟨round, blockHash⟩ ∨
      ∃ k h, r = Record.transaction ⟨h, some ⟨k % 2 ^ 32, round⟩⟩ := by
  rcases List.mem_cons.mp h with h | h
  · left; exact h
  · right
    obtain ⟨k, _, _, t, _, _, _, _, h4⟩ :=
      store_mem_loopEvents rlp round txs r 0 ((mem_storeCalls r _).mp h)
    exact ⟨0 + k, ethHashString (rlp.Hash t), h4⟩

theorem index_never_writes_progress {τ : Type} (rlp : Codec τ) (round : Nat)
    (blockHash : Hash) (txs : List UnverifiedTransaction) (q : IndexedRoundWithTip) :
    Record.indexedRound q ∉
      Record.block ⟨round, blockHash⟩ :: storeCalls (loopEvents rlp round 0 txs) := by
  intro h
  rcases index_writes_shape rlp round blockHash txs _ h with h | ⟨_, _, h⟩ <;> cases h

theorem Table.lastValue_of_mem {κ ν : Type} [DecidableEq κ] (kvs : List (κ × ν)) (k : κ)
    (v0 : ν) (h : (k, v0) ∈ kvs) : ∃ v, Table.lastValue kvs k = some v := by
  induction kvs with
  | nil => simp at h
  | cons e rest ih =>
    cases hl : Table.lastValue rest k with
    | some v => exact ⟨v, by simp [Table.lastValue, hl]⟩
    | none =>
      rcases List.mem_cons.mp h with h | h
      · subst h
        exact ⟨v0, by simp [Table.lastValue, hl]⟩
      · obtain ⟨v, hv⟩ := ih h
        rw [hl] at hv
        cases hv

theorem Table.lastValue_mem {κ ν : Type} [DecidableEq κ] (kvs : List (κ × ν)) (k : κ)
    (v : ν) (h : Table.lastValue kvs k = some v) : (k, v) ∈ kvs := by
  induction kvs with
  | nil => simp [Table.lastValue] at h
  | cons e rest ih =>
    cases hl : Table.lastValue rest k with
    | some v2 =>
      simp only [Table.lastValue, hl, Option.some.injEq] at h
      subst h
      exact List.mem_cons_of_mem _ (ih hl)
    | none =>
      by_cases he : e.1 = k
      · simp only [Table.lastValue, hl, he, if_true, Option.some.injEq] at h
        subst h
        subst he
        simp
      · simp [Table.lastValue, hl, he] at h

theorem mem_txRows (recs : List Record) (h : String) (v : Option TxResult) :
    (h, v) ∈ txRows recs ↔ Record.transaction ⟨h, v⟩ ∈ recs := by
  induction recs with
  | nil => simp [txRows]
  | cons r rest ih =>
    cases r with
    | block b => simp [txRows, ih]
    | transaction t =>
      obtain ⟨th, tv⟩ := t
      simp [txRows, ih]
    | indexedRound q => simp [txRows, ih]

theorem txRows_append (a b : List Record) : txRows (a ++ b) = txRows a ++ txRows b := by
  induction a with
  | nil => rfl
  | cons r rest ih => cases r <;> simp [txRows, ih]

theorem blockRows_nil_of_no_block (recs : List Record)
    (h : ∀ r ∈ recs, ∀ b, r ≠ Record.block b) : blockRows recs = [] := by
  induction recs with
  | nil => rfl
  | cons r rest ih =>
    have hrest := ih (fun x hx => h x (List.mem_cons_of_mem _ hx))
    cases r with
    | block b => exact absurd rfl (h _ (by simp) b)
    | transaction t => simpa [blockRows] using hrest
    | indexedRound q => simpa [blockRows] using hrest

theorem blockRows_loop {τ : Type} (rlp : Codec τ) (round : Nat) (idx : Nat)
    (txs : List UnverifiedTransaction) :
    blockRows (storeCalls (loopEvents rlp round idx txs)) = [] := by
  apply blockRows_nil_of_no_block
  intro r hr b hb
  obtain ⟨_, _, _, _, _, _, _, _, h4⟩ :=
    store_mem_loopEvents rlp round txs r idx ((mem_storeCalls r _).mp hr)
  rw [hb] at h4
  cases h4

/-- The block table of the reference storage after `Index`. -/
theorem index_blocks {τ : Type} (rlp : Codec τ) (s : MemDB) (round : Nat)
    (blockHash : Hash) (txs : List UnverifiedTransaction) :
    (replay (Record.block ⟨round, blockHash⟩ ::
      storeCalls (loopEvents rlp round 0 txs)) s).blocks =
      Table.upsert s.blocks round blockHash := by
  rw [replay_blocks]
  simp [blockRows, blockRows_loop, Table.upsertAll]

/-- The transaction table of the reference storage after `Index`. -/
theorem index_txs {τ : Type} (rlp : Codec τ) (s : MemDB) (round : Nat)
    (blockHash : Hash) (txs : List UnverifiedTransaction) :
    (replay (Record.block ⟨round, blockHash⟩ ::
      storeCalls (loopEvents rlp round 0 txs)) s).txs =
      Table.upsertAll s.txs (txRows (storeCalls (loopEvents rlp round 0 txs))) := by
  rw [replay_txs]
  rfl

theorem QueryTxResult_hit (w : World MemDB) (h : Hash) (r : Option TxResult)
    (hl : Table.lookup w.db.txs h = some r) :
    (memBackend.QueryTxResult w h).value = Outcome.ret (r, none) := by
  have : memBackend.storage.GetTxResult w.db h = (r, none) := by
    show MemDB.GetTxResult w.db h = (r, none)
    simp [MemDB.GetTxResult, hl]
  simp [psqlBackend.QueryTxResult, this, Outcome.value]

theorem QueryBlockHash_hit (w : World MemDB) (round : Nat) (h : Hash)
    (hl : Table.lookup w.db.blocks round = some h) :
    (memBackend.QueryBlockHash w round).value = Outcome.ret (h, none) := by
  have : memBackend.storage.GetBlockHash w.db round = (h, none) := by
    show MemDB.GetBlockHash w.db round = (h, none)
    simp [MemDB.GetBlockHash, hl]
  simp [psqlBackend.QueryBlockHash, this, Outcome.value]

theorem QueryBlockRound_hit (w : World MemDB) (round : Nat) (h : Hash)
    (hl : Table.keyOf w.db.blocks h = some round) :
    (memBackend.QueryBlockRound w h).value = Outcome.ret (round, none) := by
  have : memBackend.storage.GetBlockRound w.db h = (round, none) := by
    show MemDB.GetBlockRound w.db h = (round, none)
    simp [MemDB.GetBlockRound, hl]
  simp [psqlBackend.QueryBlockRound, this, Outcome.value]

theorem QueryBlockRound_congr {σ : Type} (p : psqlBackend σ) (a b : World σ) (h : Hash)
    (hdb : a.db = b.db) :
    (p.QueryBlockRound a h).value = (p.QueryBlockRound b h).value := by
  unfold psqlBackend.QueryBlockRound
  rw [hdb]
  rcases p.storage.GetBlockRound b.db h with ⟨v, _ | e⟩ <;> simp [Outcome.value]

theorem QueryBlockHash_congr {σ : Type} (p : psqlBackend σ) (a b : World σ) (round : Nat)
    (hdb : a.db = b.db) :
    (p.QueryBlockHash a round).value = (p.QueryBlockHash b round).value := by
  unfold psqlBackend.QueryBlockHash
  rw [hdb]
  rcases p.storage.GetBlockHash b.db round with ⟨v, _ | e⟩ <;> simp [Outcome.value]

theorem QueryTxResult_congr {σ : Type} (p : psqlBackend σ) (a b : World σ) (h : Hash)
    (hdb : a.db = b.db) :
    (p.QueryTxResult a h).value = (p.QueryTxResult b h).value := by
  unfold psqlBackend.QueryTxResult
  rw [hdb]
  rcases p.storage.GetTxResult b.db h with ⟨v, _ | e⟩ <;> simp [Outcome.value]

theorem getElem?_skip {α : Type} (pre : List α) (a : α) (post : List α) (k : Nat) :
    (pre ++ a :: post)[pre.length + 1 + k]? = post[k]? := by
  induction pre with
  | nil =>
    have e : ([] : List α).length + 1 + k = k + 1 := by simp; omega
    rw [e]
    simp
  | cons x xs ih =>
    have e : (x :: xs).length + 1 + k = (xs.length + 1 + k) + 1 := by simp; omega
    rw [e]
    simpa using ih

/-- The calls of a transaction that passes the test and fails to decode. -/
theorem txEvents_err {τ : Type} (rlp : Codec τ) (round idx : Nat)
    (utx : UnverifiedTransaction) (proof : AuthProof) (err : Error)
    (hp : utx.AuthProofs = [proof]) (hm : proof.Module = ethereumModule)
    (hd : rlp.DecodeBytes utx.Body = Except.error err) :
    txEvents rlp round idx utx =
      [Event.decodeBytes utx.Body, Event.logError "decode ethereum transaction"] := by
  simp [txEvents, hp, hm, hd]

theorem loop_writes_shape {τ : Type} (rlp : Codec τ) (round idx : Nat)
    (txs : List UnverifiedTransaction) (r : Record)
    (h : r ∈ storeCalls (loopEvents rlp round idx txs)) :
    ∃ k h, r = Record.transaction ⟨h, some ⟨k, round⟩⟩ := by
  obtain ⟨k, _, _, t, _, _, _, _, h4⟩ :=
    store_mem_loopEvents rlp round txs r idx ((mem_storeCalls r _).mp h)
  exact ⟨(idx + k) % 2 ^ 32, ethHashString (rlp.Hash t), h4⟩

/-- A sequence of `Index` calls returns, having made the calls `allEvents`. -/
theorem IndexAll_eq {σ τ : Type} (p : psqlBackend σ) (rlp : Codec τ)
    (calls : List IndexCall) :
    ∀ w : World σ, p.IndexAll rlp w calls =
      Outcome.ret ⟨p.writes w.db (storeCalls (allEvents rlp calls)),
        w.trace ++ allEvents rlp calls⟩ := by
  induction calls with
  | nil => intro w; simp [psqlBackend.IndexAll, allEvents, storeCalls, psqlBackend.writes]
  | cons c cs ih =>
    intro w
    have e : allEvents rlp (c :: cs) =
        (Event.store (Record.block ⟨c.round, c.blockHash⟩) ::
          loopEvents rlp c.round 0 c.txs) ++ allEvents rlp cs := rfl
    have e2 : storeCalls (Event.store (Record.block ⟨c.round, c.blockHash⟩) ::
          loopEvents rlp c.round 0 c.txs) =
        Record.block ⟨c.round, c.blockHash⟩ ::
          storeCalls (loopEvents rlp c.round 0 c.txs) := rfl
    rw [e, storeCalls_append, writes_append, e2]
    simp only [psqlBackend.IndexAll, Index_eq, ih, List.append_assoc, List.cons_append]

theorem blockFirst_take (recs : List Record) :
    ∀ (n : Nat) (seen : List Nat), blockFirst recs seen → blockFirst (recs.take n) seen := by
  induction recs with
  | nil => intro n seen _; simp [blockFirst]
  | cons r rest ih =>
    intro n seen h
    cases n with
    | zero => simp [blockFirst]
    | succ m =>
      cases r with
      | block b => exact ih m _ h
      | transaction t => exact ⟨h.1, ih m _ h.2⟩
      | indexedRound q => exact ih m _ h

theorem blockFirst_tx_append (a b : List Record) (seen : List Nat) (rd : Nat)
    (ha : ∀ r ∈ a, ∃ k h, r = Record.transaction ⟨h, some ⟨k, rd⟩⟩) (hrd : rd ∈ seen)
    (hb : blockFirst b seen) : blockFirst (a ++ b) seen := by
  induction a with
  | nil => exact hb
  | cons r rest ih =>
    obtain ⟨k, h, hr⟩ := ha r (by simp)
    subst hr
    refine ⟨?_, ih (fun x hx => ha x (List.mem_cons_of_mem _ hx))⟩
    intro res hres
    simp only [Option.some.injEq] at hres
    rw [← hres]
    exact hrd

/-- In the writes of a sequence of `Index` calls every transaction record comes after
the block record of its round. -/
theorem blockFirst_allEvents {τ : Type} (rlp : Codec τ) (calls : List IndexCall) :
    ∀ seen : List Nat, blockFirst (storeCalls (allEvents rlp calls)) seen := by
  induction calls with
  | nil => intro seen; simp [allEvents, storeCalls, blockFirst]
  | cons c cs ih =>
    intro seen
    have e : storeCalls (allEvents rlp (c :: cs)) =
        Record.block ⟨c.round, c.blockHash⟩ ::
          (storeCalls (loopEvents rlp c.round 0 c.txs) ++ storeCalls (allEvents rlp cs)) := by
      show storeCalls ((Event.store (Record.block ⟨c.round, c.blockHash⟩) ::
          loopEvents rlp c.round 0 c.txs) ++ allEvents rlp cs) = _
      rw [storeCalls_append]
      rfl
    rw [e]
    show blockFirst (storeCalls (loopEvents rlp c.round 0 c.txs) ++
      storeCalls (allEvents rlp cs)) (c.round :: seen)
    exact blockFirst_tx_append _ _ _ c.round
      (fun r hr => loop_writes_shape rlp c.round 0 c.txs r hr) (by simp) (ih _)

/-- Writes in which blocks come first keep the referential invariant. -/
theorem replay_refOK (recs : List Record) :
    ∀ (s : MemDB) (seen : List Nat), blockFirst recs seen → s.refOK →
      (∀ r ∈ seen, ∃ e ∈ s.blocks, e.1 = r) → (replay recs s).refOK := by
  induction recs with
  | nil => intro s seen _ hs _; exact hs
  | cons r rest ih =>
    intro s seen hbf hs hseen
    rw [replay_cons]
    cases r with
    | block b =>
      apply ih _ (b.Round :: seen) hbf
      · intro h res hmem
        exact Table.key_mem_upsert _ _ _ _ (hs h res hmem)
      · intro rd hrd
        rcases List.mem_cons.mp hrd with h | h
        · exact ⟨(b.Round, b.Hash), Table.self_mem_upsert _ _ _, h.symm⟩
        · exact Table.key_mem_upsert _ _ _ _ (hseen rd h)
    | transaction t =>
      apply ih _ seen hbf.2
      · intro h res hmem
        rcases Table.mem_upsert _ _ _ _ hmem with h1 | ⟨_, h2⟩
        · have : t.Result = some res := by
            simp only [Prod.mk.injEq] at h1
            exact h1.2.symm
          exact hseen _ (hbf.1 res this)
        · exact hs h res h2
      · exact hseen
    | indexedRound q =>
      have hb : (s.Store (Record.indexedRound q)).blocks = s.blocks := by
        simp only [MemDB.Store]
        cases hp : s.progress with
        | none => rfl
        | some old => by_cases hlt : q.Round < old.Round <;> simp [hlt]
      have ht : (s.Store (Record.indexedRound q)).txs = s.txs := by
        simp only [MemDB.Store]
        cases hp : s.progress with
        | none => rfl
        | some old => by_cases hlt : q.Round < old.Round <;> simp [hlt]
      apply ih _ seen hbf
      · intro h res hmem
        rw [ht] at hmem
        rw [hb]
        exact hs h res hmem
      · intro rd hrd
        rw [hb]
        exact hseen rd hrd

theorem ethHashString_length (digits : String) :
    (ethHashString digits).length = digits.length + 2 := by
  have h : ("0x" : String).length = 2 := rfl
  simp only [ethHashString, String.length_append, h]
  omega

/-- The key under which `Index` stores a transaction is never the rendering of an
oasis-core hash holding the bytes of a transaction hash: the first has two characters
more than the second. -/
theorem ethHashString_ne {τ : Type} (rlp : Codec τ) (hhex : ∀ t, (rlp.Hash t).length = 64)
    (t t2 : τ) : ethHashString (rlp.Hash t2) ≠ rlp.Hash t := by
  intro h
  have hl := congrArg String.length h
  rw [ethHashString_length, hhex, hhex] at hl
  omega

theorem QueryTxResult_miss (w : World MemDB) (h : Hash)
    (hl : Table.lookup w.db.txs h = none) :
    (memBackend.QueryTxResult w h).value = Outcome.ret (none, some "not found") := by
  have : memBackend.storage.GetTxResult w.db h = (none, some "not found") := by
    show MemDB.GetTxResult w.db h = (none, some "not found")
    simp [MemDB.GetTxResult, hl, notFound]
  simp [psqlBackend.QueryTxResult, this, Outcome.value]

/-- On the reference storage, starting empty, a lookup by the digits of a transaction
hash misses after `Index`: every key written has `0x` in front. -/
theorem index_lookup_digits_none {τ : Type} (rlp : Codec τ)
    (hhex : ∀ t, (rlp.Hash t).length = 64) (round : Nat) (blockHash : Hash)
    (txs : List UnverifiedTransaction) (t : τ) :
    Table.lookup (replay (Record.block ⟨round, blockHash⟩ ::
      storeCalls (loopEvents rlp round 0 txs)) MemDB.empty).txs (rlp.Hash t) = none := by
  rw [index_txs, Table.lookup_upsertAll]
  have hnone : Table.lastValue (txRows (storeCalls (loopEvents rlp round 0 txs)))
      (rlp.Hash t) = none := by
    apply Table.lastValue_none
    intro e he
    have he2 : Event.store (Record.transaction ⟨e.1, e.2⟩) ∈ loopEvents rlp round 0 txs :=
      (mem_storeCalls _ _).mp ((mem_txRows _ _ _).mp he)
    obtain ⟨k, _, _, t2, _, _, _, _, h4⟩ := store_mem_loopEvents rlp round txs _ _ he2
    simp only [txRef, Record.transaction.injEq, Transaction.mk.injEq] at h4
    rw [h4.1]
    exact ethHashString_ne rlp hhex t t2
  rw [hnone]
  rfl

theorem blockRows_append (a b : List Record) :
    blockRows (a ++ b) = blockRows a ++ blockRows b := by
  induction a with
  | nil => rfl
  | cons r rest ih => cases r <;> simp [blockRows, ih]

/-- The block rows written by a sequence of `Index` calls are the pairs of the calls. -/
theorem blockRows_allEvents {τ : Type} (rlp : Codec τ) (calls : List IndexCall) :
    blockRows (storeCalls (allEvents rlp calls)) =
      calls.map (fun c => (c.round, c.blockHash)) := by
  induction calls with
  | nil => rfl
  | cons c cs ih =>
    have e : storeCalls (allEvents rlp (c :: cs)) =
        Record.block ⟨c.round, c.blockHash⟩ ::
          (storeCalls (loopEvents rlp c.round 0 c.txs) ++ storeCalls (allEvents rlp cs)) := by
      show storeCalls ((Event.store (Record.block ⟨c.round, c.blockHash⟩) ::
          loopEvents rlp c.round 0 c.txs) ++ allEvents rlp cs) = _
      rw [storeCalls_append]
      rfl
    rw [e]
    simp [blockRows, blockRows_append, blockRows_loop, ih]

theorem Table.mem_upsertAll {κ ν : Type} [DecidableEq κ] (kvs : List (κ × ν)) :
    ∀ (t : List (κ × ν)) (e : κ × ν), e ∈ Table.upsertAll t kvs → e ∈ t ∨ e ∈ kvs := by
  induction kvs with
  | nil => intro t e h; exact Or.inl h
  | cons x rest ih =>
    intro t e h
    rw [Table.upsertAll_cons] at h
    rcases ih _ e h with h1 | h1
    · rcases Table.mem_upsert _ _ _ _ h1 with h2 | ⟨_, h2⟩
      · right; rw [h2]; simp
      · left; exact h2
    · right; exact List.mem_cons_of_mem _ h1

theorem Table.row_mem_upsertAll {κ ν : Type} [DecidableEq κ] (k : κ) (v : ν)
    (kvs : List (κ × ν)) :
    ∀ t : List (κ × ν), (k, v) ∈ t → (∀ e ∈ kvs, e.1 = k → e.2 = v) →
      (k, v) ∈ Table.upsertAll t kvs := by
  induction kvs with
  | nil => intro t h _; exact h
  | cons x rest ih =>
    intro t h hk
    rw [Table.upsertAll_cons]
    apply ih _ _ (fun e he => hk e (List.mem_cons_of_mem _ he))
    by_cases hx : x.1 = k
    · have hv : x.2 = v := hk x (by simp) hx
      rw [hx, hv]
      exact Table.self_mem_upsert _ _ _
    · exact Table.mem_upsert_of_ne _ _ _ _ h (fun h2 => hx h2.symm)

/-- A pair written to a table reads back in both directions after further writes, as
long as the value is on no other key before and the further writes give the key that
value and the value that key. -/
theorem Table.round_trip {κ ν : Type} [DecidableEq κ] [DecidableEq ν] (t : List (κ × ν))
    (k : κ) (v : ν) (kvs : List (κ × ν)) (hprior : ∀ e ∈ t, e.2 = v → e.1 = k)
    (hkvs : ∀ e ∈ kvs, (e.1 = k ↔ e.2 = v)) :
    Table.lookup (Table.upsertAll (Table.upsert t k v) kvs) k = some v ∧
    Table.keyOf (Table.upsertAll (Table.upsert t k v) kvs) v = some k := by
  constructor
  · rw [Table.lookup_upsertAll]
    cases hl : Table.lastValue kvs k with
    | none => simp [Table.lookup_upsert]
    | some v2 =>
      have := (hkvs _ (Table.lastValue_mem _ _ _ hl)).mp rfl
      simp only at this
      rw [this]
  · apply Table.keyOf_eq
    · exact ⟨(k, v), Table.row_mem_upsertAll k v kvs _ (Table.self_mem_upsert _ _ _)
        (fun e he hek => (hkvs e he).mp hek), rfl⟩
    · intro e he hev
      rcases Table.mem_upsertAll kvs _ e he with h1 | h1
      · rcases Table.mem_upsert _ _ _ _ h1 with h2 | ⟨_, h2⟩
        · rw [h2]
        · exact hprior e h2 hev
      · exact (hkvs e h1).mpr hev

/-! ## The claims about calls and results -/

/-- C1. A transaction whose number of authorization proofs is not exactly one, or
whose single proof carries a module tag other than `evm.ethereum.v0`, is passed over
by the loop of `Index` whatever its body: its iteration returns the world it was given
(no `Store` call, no call of the decoder, no panic on `AuthProofs[0]`), and the run of
`Index` over a list containing it is the run over the transactions before it followed
at once by the run over the transactions after it, at their own positions. -/
theorem C1_index_skips_ineligible {σ τ : Type} (p : psqlBackend σ) (rlp : Codec τ)
    (w : World σ) (round : Nat) (blockHash : Hash) (pre post : List UnverifiedTransaction)
    (utx : UnverifiedTransaction)
    (h : utx.AuthProofs.length ≠ 1 ∨
      ∃ proof, utx.AuthProofs = [proof] ∧ proof.Module ≠ "evm.ethereum.v0") :
    (∀ (w0 : World σ) (idx : Nat), p.indexTx rlp round w0 idx utx = Outcome.ret w0) ∧
    ∃ w1 w2,
      p.indexLoop rlp round 0 pre (p.callStore w (Record.block ⟨round, blockHash⟩)) =
        Outcome.ret w1 ∧
      p.indexLoop rlp round (pre.length + 1) post w1 = Outcome.ret w2 ∧
      p.Index rlp w round blockHash (pre ++ utx :: post) = Outcome.ret (none, w2) := by
  have hskip : ∀ idx, txEvents rlp round idx utx = [] :=
    fun idx => txEvents_skip rlp round idx utx h
  constructor
  · intro w0 idx
    rw [indexTx_eq, hskip]
    simp [storeCalls, psqlBackend.writes]
  · refine ⟨_, _, indexLoop_eq p rlp round pre 0 _, indexLoop_eq p rlp round post _ _, ?_⟩
    rw [Index_eq, loopEvents_append, loopEvents, hskip]
    simp [psqlBackend.callStore, psqlBackend.writes, storeCalls_append, List.foldl_append,
      storeCalls]

/-- Witness of C1: a transaction without any proof between two Ethereum transactions. -/
theorem C1_index_skips_ineligible_witness :
    (∀ (w0 : World MemDB) (idx : Nat),
      memBackend.indexTx demoCodec 1 w0 idx ⟨[1, 2], []⟩ = Outcome.ret w0) ∧
    ∃ w1 w2,
      memBackend.indexLoop demoCodec 1 0 [ethTx legacyBody]
        (memBackend.callStore World.start (Record.block ⟨1, "hello"⟩)) = Outcome.ret w1 ∧
      memBackend.indexLoop demoCodec 1 ([ethTx legacyBody].length + 1) [ethTx legacyBody] w1 =
        Outcome.ret w2 ∧
      memBackend.Index demoCodec World.start 1 "hello"
        ([ethTx legacyBody] ++ ⟨[1, 2], []⟩ :: [ethTx legacyBody]) = Outcome.ret (none, w2) :=
  C1_index_skips_ineligible memBackend demoCodec World.start 1 "hello" [ethTx legacyBody]
    [ethTx legacyBody] ⟨[1, 2], []⟩ (Or.inl (by decide))

/-- C3 (the code at a miss). On the reference storage holding no block, the lookup
`GetBlockHash` for round 1 reports an error and `QueryBlockHash` panics with
`Indexer error!`: it does not return the error to its caller. -/
theorem C3_QueryBlockHash_panics_on_miss :
    (memBackend.storage.GetBlockHash World.start.db 1).2 = some "not found" ∧
    memBackend.QueryBlockHash World.start 1 = Outcome.panic "Indexer error!" :=
  ⟨rfl, QueryBlockHash_miss memBackend World.start 1 "" "not found" rfl⟩

/-- C5 (refuted as stated). Indexing round 7 with one Ethereum transaction on the
empty reference storage succeeds; the last write is the transaction record, no
progress record of round 7 is written, and `getLastIndexedRound` still misses. -/
theorem C5_counterexample :
    ∃ w1, memBackend.Index demoCodec World.start 7 "hello" [ethTx legacyBody] =
        Outcome.ret (none, w1) ∧
      (storeCalls w1.trace).getLast? =
        some (Record.transaction (txRef 7 0 (ethHashString legacyHash))) ∧
      (∀ tip, Record.indexedRound ⟨tip, 7⟩ ∉ storeCalls w1.trace) ∧
      w1.db.GetLastIndexedRound = (0, some "not found") := by
  refine ⟨_, Index_eq memBackend demoCodec World.start 7 "hello" [ethTx legacyBody],
    ?_, ?_, ?_⟩
  · decide
  · intro tip h
    have h2 := (mem_storeCalls _ _).mp h
    simp only [World.start, List.nil_append, List.mem_cons] at h2
    rcases h2 with h2 | h2
    · cases h2
    · obtain ⟨_, _, _, _, _, _, _, _, h4⟩ := store_mem_loopEvents demoCodec 7 _ _ 0 h2
      cases h4
  · rfl

/-- C5 (amended). For every storage, `Index` returns a nil error and every write it
makes is the block record of the round or a transaction record: it writes no
`IndexedRoundWithTip`.  On the reference storage `getLastIndexedRound` reads the same
before and after `Index`. -/
theorem C5_index_writes_no_progress {σ τ : Type} (p : psqlBackend σ) (rlp : Codec τ)
    (w : World σ) (wm : World MemDB) (round : Nat) (blockHash : Hash)
    (txs : List UnverifiedTransaction) :
    (∃ w1, p.Index rlp w round blockHash txs = Outcome.ret (none, w1) ∧
      (∀ r, Event.store r ∈ w1.trace.drop w.trace.length →
        r = Record.block ⟨round, blockHash⟩ ∨ ∃ t, r = Record.transaction t) ∧
      ∀ q, Event.store (Record.indexedRound q) ∉ w1.trace.drop w.trace.length) ∧
    ∃ w1, memBackend.Index rlp wm round blockHash txs = Outcome.ret (none, w1) ∧
      w1.db.GetLastIndexedRound = wm.db.GetLastIndexedRound := by
  constructor
  · refine ⟨_, Index_eq p rlp w round blockHash txs, ?_, ?_⟩
    · intro r hr
      simp only [List.drop_left] at hr
      have hr2 : r ∈ Record.block ⟨round, blockHash⟩ ::
          storeCalls (loopEvents rlp round 0 txs) := by
        rcases List.mem_cons.mp hr with h | h
        · simp at h; simp [h]
        · exact List.mem_cons_of_mem _ ((mem_storeCalls r _).mpr h)
      rcases index_writes_shape rlp round blockHash txs r hr2 with h | ⟨k, h, hk⟩
      · exact Or.inl h
      · exact Or.inr ⟨_, hk⟩
    · intro q hq
      simp only [List.drop_left] at hq
      apply index_never_writes_progress rlp round blockHash txs q
      rcases List.mem_cons.mp hq with h | h
      · simp at h
      · exact List.mem_cons_of_mem _ ((mem_storeCalls _ _).mpr h)
  · refine ⟨_, Index_eq memBackend rlp wm round blockHash txs, ?_⟩
    simp only [MemDB.GetLastIndexedRound, memBackend_writes]
    rw [replay_progress _ _ (index_never_writes_progress rlp round blockHash txs)]

/-- C6 (refuted as stated). On a storage whose every write fails, the write of the
block record of round 1 fails and `Index` returns a nil error all the same. -/
theorem C6_counterexample :
    (failingBackend.storage.Store () (Record.block ⟨1, "hello"⟩)).2 =
        some "storage failure" ∧
      (failingBackend.Index demoCodec ⟨(), []⟩ 1 "hello" [ethTx legacyBody]).value =
        Outcome.ret none :=
  ⟨rfl, by rw [Index_eq]; rfl⟩

/-- C6 (amended). For every storage, whether or not the write of the block record
fails, `Index` drops the result of the write, goes on to run the loop over the
transactions from the world the write left, and returns a nil error. -/
theorem C6_index_returns_nil {σ τ : Type} (p : psqlBackend σ) (rlp : Codec τ)
    (w : World σ) (round : Nat) (blockHash : Hash) (txs : List UnverifiedTransaction) :
    ∃ w1, p.indexLoop rlp round 0 txs
        ⟨(p.storage.Store w.db (Record.block ⟨round, blockHash⟩)).1,
          w.trace ++ [Event.store (Record.block ⟨round, blockHash⟩)]⟩ = Outcome.ret w1 ∧
      p.Index rlp w round blockHash txs = Outcome.ret (none, w1) := by
  refine ⟨_, indexLoop_eq p rlp round txs 0 _, ?_⟩
  rw [Index_eq]
  simp [psqlBackend.writes]

/-- C10. `QueryBlockRound` and `QueryTxResult` hand back what the storage lookup
reports: on a nil error the value of the storage with a nil error, on an error the
zero value (0, respectively nil) with that same error.  Neither panics, and neither
changes the storage state or makes a `Store` call. -/
theorem C10_query_delegation {σ : Type} (p : psqlBackend σ) (w : World σ) (key : Hash) :
    (∀ v, p.storage.GetBlockRound w.db key = (v, none) →
      ∃ w1, p.QueryBlockRound w key = Outcome.ret ((v, none), w1) ∧
        w1.db = w.db ∧ storeCalls w1.trace = storeCalls w.trace) ∧
    (∀ v err, p.storage.GetBlockRound w.db key = (v, some err) →
      ∃ w1, p.QueryBlockRound w key = Outcome.ret ((0, some err), w1) ∧
        w1.db = w.db ∧ storeCalls w1.trace = storeCalls w.trace) ∧
    (∀ v, p.storage.GetTxResult w.db key = (v, none) →
      ∃ w1, p.QueryTxResult w key = Outcome.ret ((v, none), w1) ∧
        w1.db = w.db ∧ storeCalls w1.trace = storeCalls w.trace) ∧
    (∀ v err, p.storage.GetTxResult w.db key = (v, some err) →
      ∃ w1, p.QueryTxResult w key = Outcome.ret ((none, some err), w1) ∧
        w1.db = w.db ∧ storeCalls w1.trace = storeCalls w.trace) := by
  refine ⟨?_, ?_, ?_, ?_⟩
  · intro v h
    refine ⟨w.emit (Event.getBlockRound key), ?_, rfl, ?_⟩
    · simp [psqlBackend.QueryBlockRound, h]
    · simp [World.emit, storeCalls_append, storeCalls]
  · intro v err h
    refine ⟨(w.emit (Event.getBlockRound key)).emit
      (Event.logError "Can't find matched block"), ?_, rfl, ?_⟩
    · simp [psqlBackend.QueryBlockRound, h]
    · simp [World.emit, storeCalls_append, storeCalls]
  · intro v h
    refine ⟨w.emit (Event.getTxResult key), ?_, rfl, ?_⟩
    · simp [psqlBackend.QueryTxResult, h]
    · simp [World.emit, storeCalls_append, storeCalls]
  · intro v err h
    refine ⟨(w.emit (Event.getTxResult key)).emit
      (Event.logError "Can't find matched transaction result"), ?_, rfl, ?_⟩
    · simp [psqlBackend.QueryTxResult, h]
    · simp [World.emit, storeCalls_append, storeCalls]

/-- Witness of C10: on the empty reference storage both lookups of `hello` miss, and
the queries return the zero value with the error of the storage. -/
theorem C10_query_delegation_witness :
    (∃ w1, memBackend.QueryBlockRound World.start "hello" =
        Outcome.ret ((0, some "not found"), w1) ∧
      w1.db = World.start.db ∧ storeCalls w1.trace = storeCalls World.start.trace) ∧
    (∃ w1, memBackend.QueryTxResult World.start "hello" =
        Outcome.ret ((none, some "not found"), w1) ∧
      w1.db = World.start.db ∧ storeCalls w1.trace = storeCalls World.start.trace) :=
  ⟨(C10_query_delegation memBackend World.start "hello").2.1 0 "not found" rfl,
    (C10_query_delegation memBackend World.start "hello").2.2.2 none "not found" rfl⟩

/-! ## The claims about the reference storage -/

/-- C2 (the code at a well-formed transaction next to a malformed one). When one
transaction of the list passes the test of the loop and fails to decode, and another
passes it and decodes, `Index` on any storage returns a nil error, makes the `Store`
call for the record of the decoded transaction, and every `Store` call it makes is the
block record or the record of a transaction of the list that decodes; the failure is
logged, and the iteration of the malformed transaction only calls the decoder and the
logger and leaves the storage state as it was.  The record is keyed by
`ethTx.Hash().String()`, the digits of the hash after `0x`.  On the reference storage,
starting empty, the storage holds a record of the round under that key, and
`QueryTxResult` on the decoded hash, which looks up the digits alone, returns nil with
the error of a miss. -/
theorem C2_stored_but_not_found {σ τ : Type} (p : psqlBackend σ) (rlp : Codec τ)
    (w : World σ) (round : Nat) (blockHash : Hash) (txs : List UnverifiedTransaction)
    (i j : Nat) (bad good : UnverifiedTransaction) (pb pg : AuthProof) (err : Error) (t : τ)
    (hbad : txs[i]? = some bad) (hb1 : bad.AuthProofs = [pb])
    (hb2 : pb.Module = "evm.ethereum.v0")
    (hb3 : rlp.DecodeBytes bad.Body = Except.error err)
    (hgood : txs[j]? = some good) (hg1 : good.AuthProofs = [pg])
    (hg2 : pg.Module = "evm.ethereum.v0")
    (hg3 : rlp.DecodeBytes good.Body = Except.ok t)
    (hhex : ∀ t2, (rlp.Hash t2).length = 64) :
    (∃ w1, p.Index rlp w round blockHash txs = Outcome.ret (none, w1) ∧
      Event.store (Record.transaction (txRef round j ("0x" ++ rlp.Hash t))) ∈
        w1.trace.drop w.trace.length ∧
      ∀ r, Event.store r ∈ w1.trace.drop w.trace.length →
        r = Record.block ⟨round, blockHash⟩ ∨
        ∃ k u pr t2, txs[k]? = some u ∧ u.AuthProofs = [pr] ∧
          pr.Module = "evm.ethereum.v0" ∧ rlp.DecodeBytes u.Body = Except.ok t2 ∧
          r = Record.transaction (txRef round k ("0x" ++ rlp.Hash t2))) ∧
    (∃ w1, p.Index rlp w round blockHash txs = Outcome.ret (none, w1) ∧
      Event.logError "decode ethereum transaction" ∈ w1.trace.drop w.trace.length) ∧
    (∀ (w0 : World σ) (idx : Nat), p.indexTx rlp round w0 idx bad =
      Outcome.ret ⟨w0.db, w0.trace ++
        [Event.decodeBytes bad.Body, Event.logError "decode ethereum transaction"]⟩) ∧
    ∃ w1, memBackend.Index rlp World.start round blockHash txs = Outcome.ret (none, w1) ∧
      (∃ r, w1.db.GetTxResult ("0x" ++ rlp.Hash t) = (some r, none) ∧ r.Round = round) ∧
      (memBackend.QueryTxResult w1 (rlp.Hash t)).value =
        Outcome.ret (none, some "not found") := by
  obtain ⟨pre, post, _, _, hev⟩ := loopEvents_of_ok rlp round 0 j txs good pg t hgood hg1 hg2 hg3
  have hmem : Event.store (Record.transaction (txRef round j (ethHashString (rlp.Hash t)))) ∈
      loopEvents rlp round 0 txs := by
    rw [hev]
    simp
  refine ⟨⟨_, Index_eq p rlp w round blockHash txs, ?_, ?_⟩,
    ⟨_, Index_eq p rlp w round blockHash txs, ?_⟩, ?_, ?_⟩
  · simp only [List.drop_left]
    exact List.mem_cons_of_mem _ hmem
  · intro r hr
    simp only [List.drop_left] at hr
    rcases List.mem_cons.mp hr with h | h
    · left; simpa using h
    · right
      obtain ⟨k, u, pr, t2, h0, h1, h2, h3, h4⟩ := store_mem_loopEvents rlp round txs r 0 h
      exact ⟨k, u, pr, t2, h0, h1, h2, h3, by simpa [ethHashString] using h4⟩
  · obtain ⟨pre2, post2, h1, _⟩ := getElem?_split txs bad i hbad
    simp only [List.drop_left]
    apply List.mem_cons_of_mem
    rw [h1, loopEvents_append, loopEvents, txEvents_err rlp round _ bad pb err hb1 hb2 hb3]
    simp
  · intro w0 idx
    rw [indexTx_eq, txEvents_err rlp round idx bad pb err hb1 hb2 hb3]
    simp [storeCalls, psqlBackend.writes]
  · refine ⟨_, Index_eq memBackend rlp World.start round blockHash txs, ?_, ?_⟩
    · have hrow : (ethHashString (rlp.Hash t), some (⟨j % 2 ^ 32, round⟩ : TxResult)) ∈
          txRows (storeCalls (loopEvents rlp round 0 txs)) :=
        (mem_txRows _ _ _).mpr ((mem_storeCalls _ _).mpr hmem)
      obtain ⟨v, hv⟩ := Table.lastValue_of_mem _ _ _ hrow
      have hv2 := (mem_storeCalls _ _).mp ((mem_txRows _ _ _).mp (Table.lastValue_mem _ _ _ hv))
      obtain ⟨k, _, _, t2, _, _, _, _, h4⟩ := store_mem_loopEvents rlp round txs _ 0 hv2
      have hv3 : v = some ⟨(0 + k) % 2 ^ 32, round⟩ := by
        simp only [txRef, Record.transaction.injEq, Transaction.mk.injEq] at h4
        exact h4.2
      refine ⟨⟨(0 + k) % 2 ^ 32, round⟩, ?_, rfl⟩
      have hl : Table.lookup (memBackend.writes World.start.db (Record.block ⟨round, blockHash⟩ ::
          storeCalls (loopEvents rlp round 0 txs))).txs (ethHashString (rlp.Hash t)) =
          some (some ⟨(0 + k) % 2 ^ 32, round⟩) := by
        simp only [memBackend_writes]
        rw [index_txs, Table.lookup_upsertAll, hv, hv3]
      show MemDB.GetTxResult _ (ethHashString (rlp.Hash t)) = _
      simp only [MemDB.GetTxResult, hl]
    · apply QueryTxResult_miss
      exact index_lookup_digits_none rlp hhex round blockHash txs t

/-- Witness of C2: an empty payload, which the decoder rejects, before the payload of a
legacy transaction.  The record of round 1 is stored under the digits of the hash
after `0x`, and the query on the hash misses. -/
theorem C2_stored_but_not_found_witness :
    ∃ w1, memBackend.Index demoCodec World.start 1 "hello" [ethTx [], ethTx legacyBody] =
        Outcome.ret (none, w1) ∧
      (∃ r, w1.db.GetTxResult
          "0x8a84686634729c57532b9ffa4e632e241b2de5c880c771c5c214d5e7ec465b1c" =
        (some r, none) ∧ r.Round = 1) ∧
      (memBackend.QueryTxResult w1
          "8a84686634729c57532b9ffa4e632e241b2de5c880c771c5c214d5e7ec465b1c").value =
        Outcome.ret (none, some "not found") :=
  (C2_stored_but_not_found memBackend demoCodec World.start 1 "hello"
    [ethTx [], ethTx legacyBody] 0 1 (ethTx []) (ethTx legacyBody) ⟨"evm.ethereum.v0"⟩
    ⟨"evm.ethereum.v0"⟩ "rlp: decode error" () rfl rfl rfl rfl rfl rfl rfl rfl (fun _ => rfl)).2.2.2

/-- C4. On the reference storage, for every prior state and every
`(round, blockHash, txs)`, `Index` succeeds and afterwards `QueryBlockHash(round)`
returns `blockHash`; and where the call respects the invariant of section 3 of the
specification that a hash belongs to one round (no block record of another round in
the prior state holds `blockHash`), `QueryBlockRound(blockHash)` returns `round`.
Both answers still hold after any further `Index` calls that respect the invariant
for this pair (a call is for `round` exactly when it carries `blockHash`). -/
theorem C4_block_round_trip {τ : Type} (rlp : Codec τ) (w : World MemDB) (round : Nat)
    (blockHash : Hash) (txs : List UnverifiedTransaction) (later : List IndexCall) :
    ∃ w1 w2, memBackend.Index rlp w round blockHash txs = Outcome.ret (none, w1) ∧
      memBackend.IndexAll rlp w1 later = Outcome.ret w2 ∧
      (memBackend.QueryBlockHash w1 round).value = Outcome.ret (blockHash, none) ∧
      ((∀ r, (r, blockHash) ∈ w.db.blocks → r = round) →
        (memBackend.QueryBlockRound w1 blockHash).value = Outcome.ret (round, none)) ∧
      ((∀ r, (r, blockHash) ∈ w.db.blocks → r = round) →
        (∀ c ∈ later, (c.round = round ↔ c.blockHash = blockHash)) →
        (memBackend.QueryBlockHash w2 round).value = Outcome.ret (blockHash, none) ∧
        (memBackend.QueryBlockRound w2 blockHash).value = Outcome.ret (round, none)) := by
  have hp : (∀ r, (r, blockHash) ∈ w.db.blocks → r = round) →
      ∀ e ∈ w.db.blocks, e.2 = blockHash → e.1 = round := by
    intro hprior e he hev
    apply hprior
    rw [← hev]
    exact he
  refine ⟨_, _, Index_eq memBackend rlp w round blockHash txs,
    IndexAll_eq memBackend rlp later _, ?_, ?_, ?_⟩
  · apply QueryBlockHash_hit
    simp only [memBackend_writes]
    rw [index_blocks, Table.lookup_upsert]
    simp
  · intro hprior
    apply QueryBlockRound_hit
    simp only [memBackend_writes]
    rw [index_blocks]
    exact (Table.round_trip w.db.blocks round blockHash [] (hp hprior) (by simp)).2
  · intro hprior hlater
    have h2 := Table.round_trip w.db.blocks round blockHash
      (later.map (fun c => (c.round, c.blockHash))) (hp hprior) (by
        intro e he
        obtain ⟨c, hc, rfl⟩ := List.mem_map.mp he
        exact hlater c hc)
    constructor
    · apply QueryBlockHash_hit
      simp only [memBackend_writes]
      rw [replay_blocks, index_blocks, blockRows_allEvents]
      exact h2.1
    · apply QueryBlockRound_hit
      simp only [memBackend_writes]
      rw [replay_blocks, index_blocks, blockRows_allEvents]
      exact h2.2

/-- Witness of C4: from the empty storage, round 1 with hash `hello`, then rounds 2 and
3 with hashes `world` and `hello world`; afterwards `QueryBlockRound("hello")` is 1
and `QueryBlockHash(1)` is `hello`. -/
theorem C4_block_round_trip_witness :
    ∃ w1 w2, memBackend.Index demoCodec World.start 1 "hello" [] = Outcome.ret (none, w1) ∧
      memBackend.IndexAll demoCodec w1 [⟨2, "world", []⟩, ⟨3, "hello world", []⟩] =
        Outcome.ret w2 ∧
      (memBackend.QueryBlockHash w2 1).value = Outcome.ret ("hello", none) ∧
      (memBackend.QueryBlockRound w2 "hello").value = Outcome.ret (1, none) := by
  obtain ⟨w1, w2, h1, h2, _, _, h5⟩ := C4_block_round_trip demoCodec World.start 1
    "hello" [] [⟨2, "world", []⟩, ⟨3, "hello world", []⟩]
  have h6 := h5 (by intro r hr; simp [World.start, MemDB.empty] at hr)
    (by intro c hc; simp at hc; rcases hc with rfl | rfl <;> simp)
  exact ⟨w1, w2, h1, h2, h6.1, h6.2⟩

/-- C7. On the reference storage, for every state and every `(round, blockHash, txs)`,
a second `Index` call with the same arguments right after the first leaves the
storage state equal to the state after the first call, and so every result of
`QueryBlockRound`, `QueryBlockHash` and `QueryTxResult` is the same after both. -/
theorem C7_reindex_idempotent {τ : Type} (rlp : Codec τ) (w : World MemDB) (round : Nat)
    (blockHash : Hash) (txs : List UnverifiedTransaction) :
    ∃ w1 w2, memBackend.Index rlp w round blockHash txs = Outcome.ret (none, w1) ∧
      memBackend.Index rlp w1 round blockHash txs = Outcome.ret (none, w2) ∧
      w2.db = w1.db ∧
      (∀ h, (memBackend.QueryBlockRound w2 h).value =
        (memBackend.QueryBlockRound w1 h).value) ∧
      (∀ r, (memBackend.QueryBlockHash w2 r).value =
        (memBackend.QueryBlockHash w1 r).value) ∧
      (∀ h, (memBackend.QueryTxResult w2 h).value =
        (memBackend.QueryTxResult w1 h).value) := by
  have hdb : memBackend.writes (memBackend.writes w.db
      (Record.block ⟨round, blockHash⟩ :: storeCalls (loopEvents rlp round 0 txs)))
      (Record.block ⟨round, blockHash⟩ :: storeCalls (loopEvents rlp round 0 txs)) =
      memBackend.writes w.db
        (Record.block ⟨round, blockHash⟩ :: storeCalls (loopEvents rlp round 0 txs)) := by
    simp only [memBackend_writes]
    exact replay_idem _ _ (index_never_writes_progress rlp round blockHash txs)
  exact ⟨_, _, Index_eq memBackend rlp w round blockHash txs,
    Index_eq memBackend rlp _ round blockHash txs, hdb,
    fun h => QueryBlockRound_congr memBackend _ _ h hdb,
    fun r => QueryBlockHash_congr memBackend _ _ r hdb,
    fun h => QueryTxResult_congr memBackend _ _ h hdb⟩

/-- C8 (the code at an indexed transaction). For a position `i < 2 ^ 32` whose
transaction passes the test of the loop and decodes to `t`, `Index` on any storage
makes the `Store` call for the record with `Index = i` (the position in the whole
list) and `Round = round`, keyed by `ethTx.Hash().String()`: the digits of the hash
the decoder computes, after `0x`.  On the reference storage, starting empty, the
storage then holds that result under that key when no later transaction of the list
that is indexed has the same hash; and `QueryTxResult` on the hash of `t`, which looks
up the digits alone, returns nil with the error of a miss. -/
theorem C8_tx_record_not_found {σ τ : Type} (p : psqlBackend σ) (rlp : Codec τ)
    (w : World σ) (round : Nat) (blockHash : Hash)
    (txs : List UnverifiedTransaction) (i : Nat) (utx : UnverifiedTransaction)
    (proof : AuthProof) (t : τ) (hi : i < 2 ^ 32) (hget : txs[i]? = some utx)
    (hp : utx.AuthProofs = [proof]) (hm : proof.Module = "evm.ethereum.v0")
    (hd : rlp.DecodeBytes utx.Body = Except.ok t)
    (hhex : ∀ t2, (rlp.Hash t2).length = 64) :
    (∃ w1, p.Index rlp w round blockHash txs = Outcome.ret (none, w1) ∧
      Event.store (Record.transaction ⟨"0x" ++ rlp.Hash t, some ⟨i, round⟩⟩) ∈
        w1.trace.drop w.trace.length) ∧
    ∃ w1, memBackend.Index rlp World.start round blockHash txs = Outcome.ret (none, w1) ∧
      ((∀ k u pr t2, i < k → txs[k]? = some u → u.AuthProofs = [pr] →
          pr.Module = "evm.ethereum.v0" → rlp.DecodeBytes u.Body = Except.ok t2 →
          rlp.Hash t2 ≠ rlp.Hash t) →
        w1.db.GetTxResult ("0x" ++ rlp.Hash t) = (some ⟨i, round⟩, none)) ∧
      (memBackend.QueryTxResult w1 (rlp.Hash t)).value =
        Outcome.ret (none, some "not found") := by
  obtain ⟨pre, post, htx, hlen, hev⟩ :=
    loopEvents_of_ok rlp round 0 i txs utx proof t hget hp hm hd
  have hrec : txRef round (0 + i) (ethHashString (rlp.Hash t)) =
      ⟨ethHashString (rlp.Hash t), some ⟨i, round⟩⟩ := by
    have hmod : i % 2 ^ 32 = i := Nat.mod_eq_of_lt hi
    simp only [txRef, Nat.zero_add, hmod]
  rw [hrec] at hev
  constructor
  · refine ⟨_, Index_eq p rlp w round blockHash txs, ?_⟩
    simp only [List.drop_left]
    apply List.mem_cons_of_mem
    rw [hev]
    simp [ethHashString]
  · refine ⟨_, Index_eq memBackend rlp World.start round blockHash txs, ?_, ?_⟩
    · intro hlater
      have hl : Table.lookup (memBackend.writes World.start.db
          (Record.block ⟨round, blockHash⟩ ::
            storeCalls (loopEvents rlp round 0 txs))).txs (ethHashString (rlp.Hash t)) =
          some (some ⟨i, round⟩) := by
        simp only [memBackend_writes]
        rw [index_txs, Table.lookup_upsertAll, hev]
        have hnone : Table.lastValue
            (txRows (storeCalls (loopEvents rlp round (0 + i + 1) post)))
            (ethHashString (rlp.Hash t)) = none := by
          apply Table.lastValue_none
          intro e he
          have he2 : Event.store (Record.transaction ⟨e.1, e.2⟩) ∈
              loopEvents rlp round (0 + i + 1) post :=
            (mem_storeCalls _ _).mp ((mem_txRows _ _ _).mp he)
          obtain ⟨k, u, pr, t2, h0, h1, h2, h3, h4⟩ :=
            store_mem_loopEvents rlp round post _ _ he2
          have hk : txs[i + 1 + k]? = some u := by
            rw [htx, ← hlen, getElem?_skip]
            exact h0
          have hne := hlater (i + 1 + k) u pr t2 (by omega) hk h1 h2 h3
          simp only [txRef, Record.transaction.injEq, Transaction.mk.injEq] at h4
          rw [h4.1]
          intro heq
          apply hne
          have h5 := congrArg String.data heq
          simp only [ethHashString, String.data_append, List.append_cancel_left_eq] at h5
          exact String.ext h5
        simp only [storeCalls_append, txRows_append, Table.lastValue_append, storeCalls,
          txRows, hnone, Table.lastValue]
        simp only [Nat.zero_add] at hnone
        simp [hnone]
      show MemDB.GetTxResult _ (ethHashString (rlp.Hash t)) = _
      simp only [MemDB.GetTxResult, hl]
    · apply QueryTxResult_miss
      exact index_lookup_digits_none rlp hhex round blockHash txs t

/-- Witness of C8: round 9 holding the one legacy transaction.  Its record, position 0
of round 9, is stored under the digits of its hash after `0x`, and `QueryTxResult` on
the hash misses. -/
theorem C8_tx_record_not_found_witness :
    ∃ w1, memBackend.Index demoCodec World.start 9 "hello" [ethTx legacyBody] =
        Outcome.ret (none, w1) ∧
      w1.db.GetTxResult
          "0x8a84686634729c57532b9ffa4e632e241b2de5c880c771c5c214d5e7ec465b1c" =
        (some ⟨0, 9⟩, none) ∧
      (memBackend.QueryTxResult w1
          "8a84686634729c57532b9ffa4e632e241b2de5c880c771c5c214d5e7ec465b1c").value =
        Outcome.ret (none, some "not found") := by
  obtain ⟨w1, h1, h2, h3⟩ := (C8_tx_record_not_found memBackend demoCodec World.start 9
    "hello" [ethTx legacyBody] 0 (ethTx legacyBody) ⟨"evm.ethereum.v0"⟩ () (by decide) rfl
    rfl rfl rfl (fun _ => rfl)).2
  refine ⟨w1, h1, h2 ?_, h3⟩
  intro k u pr t2 hk hu
  have hlen : ([ethTx legacyBody] : List UnverifiedTransaction).length ≤ k := by
    show 1 ≤ k
    omega
  rw [List.getElem?_eq_none hlen] at hu
  cases hu

/-- C9. The first `Store` call of `Index` is the block record of the round, and every
later `Store` call of the same run is a transaction record of that round.  On the
reference storage, after any sequence of `Index` calls from the empty storage the
state is the replay of the `Store` calls made, and after every number of those calls
the round of every stored transaction record has a stored block record. -/
theorem C9_block_first {σ τ : Type} (p : psqlBackend σ) (rlp : Codec τ) (w : World σ)
    (round : Nat) (blockHash : Hash) (txs : List UnverifiedTransaction)
    (calls : List IndexCall) :
    (∃ w1 rest, p.Index rlp w round blockHash txs = Outcome.ret (none, w1) ∧
      storeCalls (w1.trace.drop w.trace.length) = Record.block ⟨round, blockHash⟩ :: rest ∧
      ∀ r ∈ rest, ∃ k h, r = Record.transaction ⟨h, some ⟨k, round⟩⟩) ∧
    ∃ w1, memBackend.IndexAll rlp World.start calls = Outcome.ret w1 ∧
      w1.db = replay (storeCalls w1.trace) MemDB.empty ∧
      ∀ n, (replay ((storeCalls w1.trace).take n) MemDB.empty).refOK := by
  constructor
  · refine ⟨_, _, Index_eq p rlp w round blockHash txs, ?_,
      fun r hr => loop_writes_shape rlp round 0 txs r hr⟩
    simp [storeCalls]
  · refine ⟨_, IndexAll_eq memBackend rlp calls World.start, ?_, ?_⟩
    · simp [World.start, memBackend_writes]
    · intro n
      apply replay_refOK _ _ [] (blockFirst_take _ n [] (by
        simpa [World.start] using blockFirst_allEvents rlp calls []))
      · intro h r hmem
        simp [MemDB.empty] at hmem
      · intro r hr
        simp at hr

end Indexer
